import Mathlib

/-!
Template previewer: context editor script.

A shallow embedding of `template_previewer/static/js/template_previewer/previewer.js`
and machine-checked statements about it.

* the `evenodd` filter is a function on the value of the global counter;
* `toggleCollapsed` acts on the class tokens of the parent of the clicked element;
* `showContext` is a function from the received payload to the sequence of effects it
  performs on the page, in program order;
* `buildContext` mutates JavaScript objects, so it is embedded over an explicit heap of
  objects addressed by references; `sendContext` reads the finished object graph back.
-/

namespace TemplatePreviewer

/-! ## Dust filter `evenodd` (previewer.js, lines 3-15) -/

/-- The initial value of the global: `var evenodd = 0;`. -/
def evenoddInit : Nat := 0

/-- The largest value the counter takes, 2^53. The counter is a JavaScript number (a
double): it counts exactly up to 2^53, and there `evenodd += 1` leaves it unchanged, because
2^53 + 1 is not representable and rounds back to 2^53. -/
def counterMax : Nat := 9007199254740992

/-- The function `dust.filters.evenodd`. It takes the argument `body` (ignored by the
source) and the current value of the global counter, and returns the string result together
with the new value of the counter. -/
def evenodd (_body : String) (counter : Nat) : String × Nat :=
  let counter := if counter < counterMax then counter + 1 else counter
  if counter % 2 == 0 then ("even", counter) else ("odd", counter)

/-- Consecutive calls of the filter, one per element of `bodies`, threading the counter.
Returns the results in call order and the final value of the counter. -/
def evenoddCalls : List String → Nat → List String × Nat
  | [], counter => ([], counter)
  | body :: rest, counter =>
    let r := evenodd body counter
    let rs := evenoddCalls rest r.2
    (r.1 :: rs.1, rs.2)

/-- Consecutive render passes in one page: each pass is the list of the filter calls it
makes. The counter is never reset between passes. Returns the results per pass and the final
counter. -/
def renderPasses : List (List String) → Nat → List (List String) × Nat
  | [], counter => ([], counter)
  | pass :: rest, counter =>
    let r := evenoddCalls pass counter
    let rs := renderPasses rest r.2
    (r.1 :: rs.1, rs.2)

/-! ## Foldable tree UI: `toggleCollapsed` (previewer.js, lines 18-28) -/

/-- The element a click handler runs on (`this`), as far as `toggleCollapsed` looks at it:
the class tokens of its parent element, or `none` when it has no parent. -/
structure Target where
  parent : Option (List String)
deriving DecidableEq, Repr

/-- Model of the DOM library call `$(this).parent()`: the set holding the parent element,
empty when there is none. An element is represented by its list of class tokens. -/
def jqParent (this : Target) : List (List String) :=
  this.parent.toList

/-- Model of the DOM library call `.hasClass(c)`: some element of the set carries `c`. -/
def hasClass (set : List (List String)) (c : String) : Bool :=
  set.any (fun e => e.contains c)

/-- Model of the DOM library call `.removeClass(c)`: the token `c` is taken out of every
element of the set. -/
def removeClass (set : List (List String)) (c : String) : List (List String) :=
  set.map (fun e => e.filter (fun t => t != c))

/-- Model of the DOM library call `.addClass(c)`: the token `c` is appended to every element
of the set that does not carry it yet. -/
def addClass (set : List (List String)) (c : String) : List (List String) :=
  set.map (fun e => if e.contains c then e else e ++ [c])

/-- The function `toggleCollapsed`, invoked with `this` bound to the clicked element. The
result is `this` with the parent's class tokens as the handler leaves them. -/
def toggleCollapsed (this : Target) : Target :=
  let listItem := jqParent this
  if hasClass listItem "uncollapsed" then
    let listItem := removeClass listItem "uncollapsed"
    let listItem := addClass listItem "collapsed"
    { parent := listItem.head? }
  else if hasClass listItem "collapsed" then
    let listItem := removeClass listItem "collapsed"
    let listItem := addClass listItem "uncollapsed"
    { parent := listItem.head? }
  else
    { parent := listItem.head? }

/-! ## JavaScript values received from the server -/

/-- Values of a parsed JSON body, plus `undefined` for the result of reading a property
that is not there. Numbers do not occur in the payload shapes of the endpoint and are not
part of the model. -/
inductive JSON where
  | undefined
  | null
  | bool (b : Bool)
  | str (s : String)
  | arr (items : List JSON)
  | obj (fields : List (String × JSON))
deriving Repr

/-- JavaScript truthiness, as tested by `if (v)`. -/
def JSON.truthy : JSON → Bool
  | .undefined => false
  | .null => false
  | .bool b => b
  | .str s => s != ""
  | .arr _ => true
  | .obj _ => true

/-- Property read `v.k`. Reading a property of `null` or `undefined` throws (`none`); a
property that is absent reads as `undefined`. -/
def JSON.getProp (v : JSON) (k : String) : Option JSON :=
  match v with
  | .undefined => none
  | .null => none
  | .obj fields => some ((fields.lookup k).getD .undefined)
  | _ => some .undefined

mutual
/-- A context node as described by the data model: an object with a string `_str` whose other
properties are context nodes. -/
def JSON.isContextNode : JSON → Bool
  | .obj fields =>
    (match fields.lookup "_str" with
      | some (.str _) => true
      | _ => false) && JSON.areContextChildren fields
  | _ => false
/-- Every property other than `_str` holds a context node. -/
def JSON.areContextChildren : List (String × JSON) → Bool
  | [] => true
  | f :: rest => JSON.isContextEntry f && JSON.areContextChildren rest
/-- One property of a context node: `_str`, or a named child node. -/
def JSON.isContextEntry : String × JSON → Bool
  | (k, v) => k == "_str" || JSON.isContextNode v
end

/-- Every property of the list holds a context node. -/
def JSON.allContextNodes : List (String × JSON) → Bool
  | [] => true
  | f :: rest => JSON.isContextNode f.2 && JSON.allContextNodes rest

/-- The non-error payload shape: a mapping of variable name to context node. -/
def JSON.isContextMapping : JSON → Bool
  | .obj fields => JSON.allContextNodes fields
  | _ => false

/-! ## Template parsing and context UI: `showContext` (previewer.js, lines 32-50) -/

/-- The observable actions of `showContext`, recorded in program order. -/
inductive Effect where
  /-- The call `$(selector).html(content)`. -/
  | html (selector : String) (content : JSON)
  /-- The call `dust.render(template, context, callback)`. -/
  | render (template : String) (context : JSON)
  /-- The call `$(selector).click(handler)`; the handler is recorded by its name. -/
  | click (selector : String) (handler : String)
deriving Repr

/-- The statement `result += out` of the render callback; `none` stands for an `out` that
is `undefined`. -/
def appendOut (result : String) (out : Option String) : String :=
  match out with
  | some s => result ++ s
  | none => result ++ "undefined"

/-- The function `showContext`. The templating engine is a parameter: `dust template context`
is the list of `out` arguments with which `dust.render` invokes its callback. The result is
the list of effects performed, or `none` when reading `data.error` throws. -/
def showContext (dust : String → JSON → List (Option String)) (data : JSON) :
    Option (List Effect) :=
  match data.getProp "error" with
  | none => none
  | some error =>
    if error.truthy then
      some [Effect.html "#context-tree" error]
    else
      let tree := JSON.obj [("children", data)]
      let result := (dust "context" tree).foldl appendOut ""
      some [Effect.render "context" tree,
            Effect.html "#context-tree" (JSON.str result),
            Effect.click "li > label" "toggleCollapsed"]

/-! ## The document tree and the DOM library calls used by `buildContext` -/

/-- An element of the document: an `input` with its `name` attribute (if any) and its
current value, or any other element with a tag and child elements. -/
inductive Node where
  | input (name : Option String) (value : String)
  | elem (tag : String) (kids : List Node)
deriving Repr

/-- The tag name an element is selected by. -/
def Node.tag : Node → String
  | .input _ _ => "input"
  | .elem t _ => t

/-- The child elements of an element, in document order. -/
def Node.kids : Node → List Node
  | .input _ _ => []
  | .elem _ ks => ks

mutual
/-- All descendants of an element, in document order. -/
def Node.descendants : Node → List Node
  | .input _ _ => []
  | .elem _ ks => Node.descendantsOfList ks
/-- The elements of a list, each followed by its descendants, in document order. -/
def Node.descendantsOfList : List Node → List Node
  | [] => []
  | k :: ks => k :: (Node.descendants k ++ Node.descendantsOfList ks)
end

/-- Model of the DOM library call `set.children(sel)` for a tag selector: the children of
the elements of the set that have tag `sel`, in document order. -/
def jqChildren (set : List Node) (sel : String) : List Node :=
  (set.map (fun e => e.kids.filter (fun k => k.tag == sel))).flatten

/-- Model of the DOM library call `set.find(sel)` for a tag selector: the descendants of
the elements of the set that have tag `sel`, in document order. -/
def jqFind (set : List Node) (sel : String) : List Node :=
  (set.map (fun e => e.descendants.filter (fun k => k.tag == sel))).flatten

/-! ## JavaScript objects on a heap -/

/-- The values `buildContext` stores in objects: `undefined`, a string, or a reference to
an object on the heap. -/
inductive JVal where
  | undefined
  | str (s : String)
  | ref (r : Nat)
deriving DecidableEq, Repr

/-- A JavaScript object: its own properties in insertion order. -/
abbrev Obj := List (String × JVal)

/-- The heap: the objects created so far; a reference is an index into this list. -/
abbrev Heap := List Obj

/-- Property assignment `o[k] = v` on a list of properties: an existing key keeps its place
and gets the new value, a new key is appended. -/
def assign {β : Type} : List (String × β) → String → β → List (String × β)
  | [], k, v => [(k, v)]
  | (k', v') :: rest, k, v =>
    if k' == k then (k', v) :: rest else (k', v') :: assign rest k v

/-- Creation of a new object with the given properties (an object literal); returns the new
heap and the reference to the object. -/
def heapAlloc (heap : Heap) (o : Obj) : Heap × Nat :=
  (heap ++ [o], heap.length)

/-- The assignment `r[k] = v` to the object referenced by `r`. For the property name
`__proto__` the assignment goes to the prototype setter of the object and creates no own
property; the heap records own properties only, and the script never reads a property of
these objects, so the heap stays as it is. Every other name is an ordinary own property. -/
def heapSet (heap : Heap) (r : Nat) (k : String) (v : JVal) : Heap :=
  if k == "__proto__" then heap
  else
    match heap[r]? with
    | some o => heap.set r (assign o k v)
    | none => heap

/-- The string the DOM library call `.val()` returns for an input whose value is `v`: the
value with carriage returns removed. -/
def readValue (v : String) : String :=
  String.mk (v.data.filter (fun c => c != Char.ofNat 13))

/-- Model of the DOM library call `set.val()`: the value of the first element of the set
with carriage returns removed, `undefined` for an empty set. Only sets of `input` elements
are passed. -/
def jqVal : List Node → JVal
  | [] => .undefined
  | .input _ v :: _ => .str (readValue v)
  | .elem _ _ :: _ => .undefined

/-- Model of the DOM library call `set.attr(a)`: the attribute of the first element of the
set, `undefined` when the set is empty or the attribute is absent. Inputs carry the
attribute `name` only. -/
def jqAttr : List Node → String → JVal
  | .input (some n) _ :: _, a => if a == "name" then .str n else .undefined
  | _, _ => .undefined

/-- The property key a value is converted to when it is used in `data[value]`. -/
def propertyKey : JVal → String
  | .undefined => "undefined"
  | .str s => s
  | .ref _ => "[object Object]"

/-- The test `if (subnodes)` on a set returned by the DOM library: such a set is an object
and is truthy even when it is empty. -/
def jqTruthy (_set : List Node) : Bool := true

/-! ## Context serialisation: `buildContext` and `sendContext` (previewer.js, lines 64-90) -/

/-- The function `buildContext(elem, data)`. `elem` is a set of elements, `data` a
reference to the object that is filled in. The first argument bounds the depth of the
recursion; `none` means that the bound was too small. The result is the heap as the call
leaves it. -/
def buildContext : Nat → List Node → Nat → Heap → Option Heap
  | 0, _, _, _ => none
  | fuel + 1, elem, data, heap =>
    let children := jqChildren elem "li"
    children.foldlM (fun heap child =>
      let input := jqFind [child] "input"
      let (heap, node) := heapAlloc heap [("_str", jqVal input)]
      let heap := heapSet heap data (propertyKey (jqAttr input "name")) (JVal.ref node)
      let subnodes := jqChildren [child] "ul"
      if jqTruthy subnodes then
        buildContext fuel subnodes node heap
      else
        some heap) heap

/-- Reads the properties of an object back, given the reading of values. -/
def reifyFields (g : JVal → Option JSON) : Obj → Option (List (String × JSON))
  | [] => some []
  | (k, v) :: rest =>
    match g v, reifyFields g rest with
    | some j, some js => some ((k, j) :: js)
    | _, _ => none

/-- The value denoted by a heap value, with references followed to the objects they point
to. The first argument bounds the nesting depth that is followed. -/
def reify : Nat → Heap → JVal → Option JSON
  | _, _, .undefined => some .undefined
  | _, _, .str s => some (.str s)
  | 0, _, .ref _ => none
  | fuel + 1, heap, .ref r =>
    match heap[r]? with
    | none => none
    | some o => (reifyFields (reify fuel heap) o).map JSON.obj

/-- The part of the page `sendContext` works on: the element `#context-tree` and the value
of the hidden field `#id_context`. -/
structure Page where
  contextTree : Node
  idContext : String

/-- The first two statements of `sendContext`: `var data = {};` and
`buildContext($("#context-tree > ul"), data);`. The result is the value of `data` after the
call. -/
def sendContextData (fuel : Nat) (page : Page) : Option JSON :=
  let (heap, data) := heapAlloc [] []
  match buildContext fuel (jqChildren [page.contextTree] "ul") data heap with
  | none => none
  | some heap => reify fuel heap (JVal.ref data)

/-- The function `sendContext`. The serialiser `$.toJSON` is a parameter. The result is the
page with the hidden field set. -/
def sendContext (toJSON : JSON → String) (fuel : Nat) (page : Page) : Option Page :=
  match sendContextData fuel page with
  | none => none
  | some data => some { page with idContext := toJSON data }

/-! ## The tree UI of the context editor -/

/-- A list item of the tree UI, as the data model describes it: an input with a name and a
current value, followed by an optional nested list of items. -/
inductive Item where
  | leaf (name value : String)
  | branch (name value : String) (children : List Item)
deriving Repr

/-- The name of the input of an item. -/
def Item.name : Item → String
  | .leaf n _ => n
  | .branch n _ _ => n

/-- The current value of the input of an item. -/
def Item.value : Item → String
  | .leaf _ v => v
  | .branch _ v _ => v

/-- The items of the nested list of an item; none when there is no nested list. -/
def Item.children : Item → List Item
  | .leaf _ _ => []
  | .branch _ _ cs => cs

mutual
/-- The `li` element of an item: its own input, followed by the nested `ul` if there is
one. -/
def Item.toDom : Item → Node
  | .leaf n v => .elem "li" [.input (some n) v]
  | .branch n v cs => .elem "li" [.input (some n) v, .elem "ul" (Item.listToDom cs)]
/-- The `li` elements of a list of items. -/
def Item.listToDom : List Item → List Node
  | [] => []
  | c :: cs => Item.toDom c :: Item.listToDom cs
end

mutual
/-- The nesting depth of an item. -/
def Item.depth : Item → Nat
  | .leaf _ _ => 1
  | .branch _ _ cs => 1 + Item.depthOfList cs
/-- The largest nesting depth among the items of a list. -/
def Item.depthOfList : List Item → Nat
  | [] => 0
  | c :: cs => max (Item.depth c) (Item.depthOfList cs)
end

/-- The page whose tree container holds the list of the given items. -/
def treePage (items : List Item) (hidden : String) : Page :=
  { contextTree := .elem "div" [.elem "ul" (Item.listToDom items)], idContext := hidden }

/-! ## Auxiliary notions for the analysis of `buildContext` -/

/-- One iteration of the loop of `buildContext` for the `li` element of an item, with the
DOM library calls evaluated: a new node `{"_str": value}` is created, stored in the object
`data` under the name of the input, and filled from the nested list. -/
def itemStep (fuel data : Nat) (heap : Heap) (it : Item) : Option Heap :=
  buildContext fuel (jqChildren [it.toDom] "ul") heap.length
    (heapSet (heap ++ [[("_str", JVal.str (readValue it.value))]]) data it.name
      (JVal.ref heap.length))

mutual
/-- The properties of the object built for an item, in functional form: `_str` first, then
the assignments made for the items of the nested list. -/
def Item.entries : Item → List (String × JSON)
  | .leaf _ v => [("_str", JSON.str (readValue v))]
  | .branch _ v cs => Item.assignAll [("_str", JSON.str (readValue v))] cs
/-- The assignments the loop makes to a mapping for a list of items, in document order, in
functional form. -/
def Item.assignAll : List (String × JSON) → List Item → List (String × JSON)
  | m, [] => m
  | m, c :: cs => Item.assignAll (assign m (Item.name c) (JSON.obj (Item.entries c))) cs
end

/-- All objects at references `r` and above refer to later objects of the heap only. -/
def ForwardFrom (heap : Heap) (r : Nat) : Prop :=
  ∀ i o, r ≤ i → heap[i]? = some o → ∀ k j, (k, JVal.ref j) ∈ o → i < j ∧ j < heap.length

/-- The object at reference `r` reads back as the mapping `m` for every depth bound from
`d` on. -/
def ReadsAs (heap : Heap) (r : Nat) (m : List (String × JSON)) (d : Nat) : Prop :=
  ∃ o, heap[r]? = some o ∧ ∀ fuel, d ≤ fuel → reifyFields (reify fuel heap) o = some m

/-- What a run of the loop of `buildContext` over `items`, with `data` at reference `r`,
guarantees about the heap `h'` it ends in when started in the heap `h`: the heap only
grows, objects other than `data` are untouched, properties of `data` not named by an item
are untouched, and the reading of `data` is extended by the assignments for the items. -/
def LoopPost (h : Heap) (r : Nat) (items : List Item) (h' : Heap) : Prop :=
  h.length ≤ h'.length ∧
  (∀ i, i < h.length → i ≠ r → h'[i]? = h[i]?) ∧
  (∀ o, h[r]? = some o →
    ∃ o', h'[r]? = some o' ∧ ∀ k, k ∉ items.map Item.name → o'.lookup k = o.lookup k) ∧
  (ForwardFrom h r →
    ForwardFrom h' r ∧
    ∀ m d, ReadsAs h r m d →
      ReadsAs h' r (Item.assignAll m items) (max d (Item.depthOfList items)))

/-- The two objects `buildContext` is called with in the script: the empty object `{}`
(`none`), as in `sendContext`, and a new node `{"_str": s}` (`some s`), as in the recursive
call for a nested list. -/
def initObj : Option String → Obj
  | none => []
  | some s => [("_str", JVal.str s)]

/-- The reading of `initObj`. -/
def initJSON : Option String → List (String × JSON)
  | none => []
  | some s => [("_str", JSON.str s)]

/-- A call `buildContext(elem, data)` in which `data` is a new object `initObj init`; the
result is the value of `data` after the call. -/
def buildFrom (fuel : Nat) (init : Option String) (elem : List Node) : Option JSON :=
  let (heap, data) := heapAlloc [] (initObj init)
  match buildContext fuel elem data heap with
  | none => none
  | some heap => reify fuel heap (JVal.ref data)

mutual
/-- No input of the item or below it is named `__proto__`. -/
def Item.ordinaryNames : Item → Bool
  | .leaf n _ => n != "__proto__"
  | .branch n _ cs => n != "__proto__" && Item.ordinaryNamesList cs
/-- No input of the list, at any depth, is named `__proto__`. -/
def Item.ordinaryNamesList : List Item → Bool
  | [] => true
  | c :: cs => Item.ordinaryNames c && Item.ordinaryNamesList cs
end

mutual
/-- The item with the value of every input replaced by what `.val()` reads from it. -/
def Item.asRead : Item → Item
  | .leaf n v => .leaf n (readValue v)
  | .branch n v cs => .branch n (readValue v) (Item.asReadList cs)
/-- The items with the value of every input replaced by what `.val()` reads from it. -/
def Item.asReadList : List Item → List Item
  | [] => []
  | c :: cs => Item.asRead c :: Item.asReadList cs
end

mutual
/-- The object for a list item, following the words of the contract: it holds `_str`, the
current value of the input, and the entries built from the nested list of the item. -/
def Item.specNode : Item → List (String × JSON)
  | .leaf _ v => [("_str", JSON.str v)]
  | .branch _ v cs => ("_str", JSON.str v) :: Item.specContext cs
/-- The mapping for a list of items, following the words of the contract: one key per list
item, the name of its input, whose value is the object for the item. -/
def Item.specContext : List Item → List (String × JSON)
  | [] => []
  | c :: cs => (Item.name c, JSON.obj (Item.specNode c)) :: Item.specContext cs
end

mutual
/-- In the nested list of the item, and in every list below it, no two sibling inputs share
a name and no input is named `_str`. -/
def Item.distinctBelow : Item → Bool
  | .leaf _ _ => true
  | .branch _ _ cs =>
    decide (("_str" :: cs.map Item.name).Nodup) && Item.distinctBelowList cs
/-- Every item of the list satisfies `Item.distinctBelow`. -/
def Item.distinctBelowList : List Item → Bool
  | [] => true
  | c :: cs => Item.distinctBelow c && Item.distinctBelowList cs
end

/-! ## Editing an input of the tree UI -/

/-- The item with the value of its input changed to `v`. -/
def Item.setValue (v : String) : Item → Item
  | .leaf n _ => .leaf n v
  | .branch n _ cs => .branch n v cs

/-- A tree UI with one of its inputs marked: the marked item stands among its siblings
(`here`), or in the nested list of a sibling (`inside`). -/
inductive Loc where
  | here (before : List Item) (it : Item) (after : List Item)
  | inside (before : List Item) (name value : String) (inner : Loc) (after : List Item)

/-- The tree UI of a marked tree. -/
def Loc.tree : Loc → List Item
  | .here before it after => before ++ it :: after
  | .inside before n val inner after => before ++ Item.branch n val inner.tree :: after

/-- The tree UI after the user has changed the value of the marked input to `v`. -/
def Loc.edit (v : String) : Loc → List Item
  | .here before it after => before ++ it.setValue v :: after
  | .inside before n val inner after => before ++ Item.branch n val (inner.edit v) :: after

/-- The marked item. -/
def Loc.item : Loc → Item
  | .here _ it _ => it
  | .inside _ _ _ inner _ => inner.item

/-- The names of the inputs on the way from the top list to the marked input, the marked
input last. -/
def Loc.names : Loc → List String
  | .here _ it _ => [it.name]
  | .inside _ n _ inner _ => n :: inner.names

/-- The marked input is not shadowed: no later sibling of it, or of one of the items it is
nested in, has the same name as that item, and no item of its own nested list is named
`_str`. -/
def Loc.visible : Loc → Bool
  | .here _ it after =>
    decide (it.name ∉ after.map Item.name) && decide ("_str" ∉ it.children.map Item.name)
  | .inside _ n _ inner after => decide (n ∉ after.map Item.name) && inner.visible

/-- The mapping with the value under key `k` replaced by its image under `f`; all other
keys and values stay as they are. -/
def updateKey (k : String) (f : JSON → JSON) (m : List (String × JSON)) :
    List (String × JSON) :=
  m.map (fun p => if p.1 == k then (p.1, f p.2) else p)

/-- Applies a change of properties to a value that is an object. -/
def onObj (f : List (String × JSON) → List (String × JSON)) : JSON → JSON
  | .obj fields => .obj (f fields)
  | j => j

/-- The mapping in which the object reached by following the keys `path` has its `_str`
replaced by the string `v`; all other keys and values stay as they are. -/
def setStrAt : List String → String → List (String × JSON) → List (String × JSON)
  | [], v, m => updateKey "_str" (fun _ => JSON.str v) m
  | k :: ks, v, m => updateKey k (onObj (setStrAt ks v)) m

/-- The `_str` property of the object reached by following the keys `path` in a mapping. -/
def strAt : List String → List (String × JSON) → Option JSON
  | [], m => m.lookup "_str"
  | k :: ks, m =>
    match m.lookup k with
    | some (JSON.obj fields) => strAt ks fields
    | _ => none

/-! ## Statements: the parity filter -/

theorem evenodd_snd (b : String) (c : Nat) (hc : c ≤ counterMax) :
    (evenodd b c).2 = min (c + 1) counterMax := by
  by_cases h : c < counterMax
  · have h2 : min (c + 1) counterMax = c + 1 := by omega
    by_cases h3 : (c + 1) % 2 = 0 <;> simp [evenodd, h, h2, h3]
  · have h2 : min (c + 1) counterMax = c := by omega
    by_cases h3 : c % 2 = 0 <;> simp [evenodd, h, h2, h3]

theorem evenodd_fst (b : String) (c : Nat) (hc : c ≤ counterMax) :
    (evenodd b c).1 = if min (c + 1) counterMax % 2 = 0 then "even" else "odd" := by
  by_cases h : c < counterMax
  · have h2 : min (c + 1) counterMax = c + 1 := by omega
    by_cases h3 : (c + 1) % 2 = 0 <;> simp [evenodd, h, h2, h3]
  · have h2 : min (c + 1) counterMax = c := by omega
    by_cases h3 : c % 2 = 0 <;> simp [evenodd, h, h2, h3]

theorem evenoddCalls_counter (bodies : List String) (c : Nat) (hc : c ≤ counterMax) :
    (evenoddCalls bodies c).2 = min (c + bodies.length) counterMax := by
  induction bodies generalizing c with
  | nil =>
    simp only [evenoddCalls, List.length_nil]
    omega
  | cons b bs ih =>
    simp only [evenoddCalls, List.length_cons, evenodd_snd b c hc]
    rw [ih _ (by omega)]
    omega

theorem evenoddCalls_getElem? (bodies : List String) (c i : Nat) (hc : c ≤ counterMax)
    (hi : i < bodies.length) :
    (evenoddCalls bodies c).1[i]? =
      some (if min (c + i + 1) counterMax % 2 = 0 then "even" else "odd") := by
  induction bodies generalizing c i with
  | nil => simp at hi
  | cons b bs ih =>
    cases i with
    | zero =>
      simp only [evenoddCalls, List.getElem?_cons_zero, Nat.add_zero, evenodd_fst b c hc]
    | succ j =>
      simp only [evenoddCalls, List.getElem?_cons_succ, evenodd_snd b c hc]
      rw [ih _ j (by omega) (by simpa using hi)]
      have : min (min (c + 1) counterMax + j + 1) counterMax =
          min (c + (j + 1) + 1) counterMax := by omega
      rw [this]

theorem renderPasses_counter (passes : List (List String)) (c : Nat) (hc : c ≤ counterMax) :
    (renderPasses passes c).2 = min (c + (passes.map List.length).sum) counterMax := by
  induction passes generalizing c with
  | nil =>
    simp only [renderPasses, List.map_nil, List.sum_nil]
    omega
  | cons p ps ih =>
    simp only [renderPasses, List.map_cons, List.sum_cons, evenoddCalls_counter p c hc]
    rw [ih _ (by omega)]
    omega

theorem renderPasses_append_single (earlier : List (List String)) (pass : List String)
    (c : Nat) :
    (renderPasses (earlier ++ [pass]) c).1 =
      (renderPasses earlier c).1 ++ [(evenoddCalls pass (renderPasses earlier c).2).1] := by
  induction earlier generalizing c with
  | nil => simp [renderPasses]
  | cons p ps ih => simp [renderPasses, ih]

theorem counterMax_even : counterMax % 2 = 0 := by
  decide

theorem evenoddCalls_replicate_last (n : Nat) :
    (evenoddCalls (List.replicate (n + 1) "x") evenoddInit).1[n]? =
      some (if min (n + 1) counterMax % 2 = 0 then "even" else "odd") := by
  rw [evenoddCalls_getElem? _ evenoddInit n (by simp [evenoddInit]) (by simp)]
  simp [evenoddInit]

theorem renderPasses_after_replicate (n : Nat) (hn : n ≤ counterMax) (pass : List String) :
    (renderPasses ([List.replicate n "x"] ++ [pass]) evenoddInit).1.getLast? =
      some (evenoddCalls pass n).1 := by
  rw [renderPasses_append_single, List.getLast?_append]
  simp only [List.getLast?_singleton, Option.or_some]
  rw [renderPasses_counter _ _ (by simp [evenoddInit])]
  have h : min (evenoddInit + (List.map List.length [List.replicate n "x"]).sum) counterMax =
      n := by
    simp [evenoddInit, hn]
  rw [h]

/-- Claim C2, counterexample. The counter is a JavaScript number: once it has reached 2^53
the statement `evenodd += 1` leaves it unchanged. Starting from the initial value 0, the
call number 2^53 + 1, an odd number, returns "even". -/
theorem evenodd_call_past_exact_range :
    (evenoddCalls (List.replicate (counterMax + 1) "x") evenoddInit).1[counterMax]? =
      some "even" ∧
    (counterMax + 1) % 2 = 1 := by
  refine ⟨?_, by decide⟩
  rw [evenoddCalls_replicate_last counterMax]
  have h : min (counterMax + 1) counterMax = counterMax := by omega
  rw [h]
  simp [counterMax_even]

/-- Claim C2, amended. Starting from the initial counter value 0, for every N and every k
with 1 ≤ k ≤ N and k ≤ 2^53 (the range in which the counter, a JavaScript number, counts
exactly), the k-th call of the `evenodd` filter returns "odd" when k is odd and "even" when
k is even, whatever the arguments of the calls are. -/
theorem evenodd_kth_call (bodies : List String) (k : Nat) (h1 : 1 ≤ k)
    (hk : k ≤ bodies.length) (hmax : k ≤ counterMax) :
    (evenoddCalls bodies evenoddInit).1[k - 1]? =
      some (if k % 2 = 1 then "odd" else "even") := by
  rw [evenoddCalls_getElem? bodies evenoddInit (k - 1) (by simp [evenoddInit]) (by omega)]
  have hk1 : min (evenoddInit + (k - 1) + 1) counterMax = k := by
    unfold evenoddInit
    omega
  rw [hk1]
  by_cases h : k % 2 = 0
  · have h' : ¬ k % 2 = 1 := by omega
    simp [h, h']
  · have h' : k % 2 = 1 := by omega
    simp [h']

theorem evenodd_kth_call_witness :
    (1 ≤ 3 ∧ 3 ≤ ["x", "y", "z"].length ∧ 3 ≤ counterMax) ∧
      (evenoddCalls ["x", "y", "z"] evenoddInit).1[3 - 1]? =
        some (if 3 % 2 = 1 then "odd" else "even") :=
  ⟨⟨by decide, by decide, by decide⟩,
    evenodd_kth_call ["x", "y", "z"] 3 (by decide) (by decide) (by decide)⟩

/-- Claim C8, counterexample. After a first render pass that calls the filter once, the
second render pass gets "even" as its first value and "odd" as its second. After earlier
passes that made 2^53 - 1 calls in total, a pass gets "even" twice, because the counter, a
JavaScript number, stays at 2^53. -/
theorem evenodd_second_pass_starts_even :
    (renderPasses [["x"], ["y", "z"]] evenoddInit).1 = [["odd"], ["even", "odd"]] ∧
    ((renderPasses ([["x"]] ++ [["y", "z"]]) evenoddInit).1.getLast?).map (List.take 2) ≠
      some ["odd", "even"] ∧
    ((renderPasses ([List.replicate (counterMax - 1) "x"] ++ [["y", "z"]])
        evenoddInit).1.getLast?).map (List.take 2) = some ["even", "even"] := by
  refine ⟨by decide, by decide, ?_⟩
  rw [renderPasses_after_replicate (counterMax - 1) (by omega)]
  have h1 : counterMax - 1 < counterMax := by decide
  have h2 : ¬ counterMax - 1 + 1 < counterMax := by decide
  have h3 : (counterMax - 1 + 1) % 2 = 0 := by decide
  simp [evenoddCalls, evenodd, h1, h2, h3]

/-- Claim C8, amended. In a render pass that follows any earlier passes (the counter is
never reset), as long as the page has made no more than 2^53 filter calls by the second call
of the pass, the first two values returned by the filter are "odd", "even" when the earlier
passes made an even number of filter calls in total, and "even", "odd" when they made an odd
number of calls. -/
theorem evenodd_pass_start (earlier : List (List String)) (b1 b2 : String)
    (rest : List String) (hmax : (earlier.map List.length).sum + 2 ≤ counterMax) :
    ((renderPasses (earlier ++ [b1 :: b2 :: rest]) evenoddInit).1.getLast?).map (List.take 2) =
      some (if (earlier.map List.length).sum % 2 = 0 then ["odd", "even"]
            else ["even", "odd"]) := by
  rw [renderPasses_append_single, List.getLast?_append]
  simp only [List.getLast?_singleton, Option.or_some, Option.map_some', Option.some.injEq]
  rw [renderPasses_counter _ _ (by simp [evenoddInit])]
  have h0 : min (evenoddInit + (earlier.map List.length).sum) counterMax =
      (earlier.map List.length).sum := by
    unfold evenoddInit
    omega
  rw [h0]
  have hc1 : (earlier.map List.length).sum ≤ counterMax := by omega
  have hc2 : min ((earlier.map List.length).sum + 1) counterMax ≤ counterMax := by omega
  simp only [evenoddCalls, evenodd_fst _ _ hc1, evenodd_snd _ _ hc1, evenodd_fst _ _ hc2,
    List.take_succ_cons, List.take_zero]
  have e1 : min ((earlier.map List.length).sum + 1) counterMax =
      (earlier.map List.length).sum + 1 := by omega
  have e2 : min ((earlier.map List.length).sum + 1 + 1) counterMax =
      (earlier.map List.length).sum + 1 + 1 := by omega
  rw [e1, e2]
  by_cases h : (earlier.map List.length).sum % 2 = 0
  · have a1 : ¬ ((earlier.map List.length).sum + 1) % 2 = 0 := by omega
    have a2 : ((earlier.map List.length).sum + 1 + 1) % 2 = 0 := by omega
    simp [h, a1, a2]
  · have a1 : ((earlier.map List.length).sum + 1) % 2 = 0 := by omega
    have a2 : ¬ ((earlier.map List.length).sum + 1 + 1) % 2 = 0 := by omega
    simp [h, a1, a2]

theorem evenodd_pass_start_witness :
    (([["x"]].map List.length).sum + 2 ≤ counterMax) ∧
    ((renderPasses ([["x"]] ++ ["y" :: "z" :: []]) evenoddInit).1.getLast?).map (List.take 2) =
      some (if ([["x"]].map List.length).sum % 2 = 0 then ["odd", "even"]
            else ["even", "odd"]) :=
  ⟨by decide, evenodd_pass_start [["x"]] "y" "z" [] (by decide)⟩

/-! ## Statements: the collapse toggle -/

/-- Claim C3. For a list item carrying exactly one of the classes "collapsed" and
"uncollapsed", one invocation of `toggleCollapsed` on its label leaves the item carrying
exactly the other one of the two; all other class tokens stay as they were. -/
theorem toggleCollapsed_flips (cls : List String)
    (h : ("collapsed" ∈ cls ∧ "uncollapsed" ∉ cls) ∨
      ("uncollapsed" ∈ cls ∧ "collapsed" ∉ cls)) :
    ∃ cls', toggleCollapsed { parent := some cls } = { parent := some cls' } ∧
      ("collapsed" ∈ cls' ↔ "uncollapsed" ∈ cls) ∧
      ("uncollapsed" ∈ cls' ↔ "collapsed" ∈ cls) ∧
      ∀ c, c ≠ "collapsed" → c ≠ "uncollapsed" → (c ∈ cls' ↔ c ∈ cls) := by
  rcases h with ⟨hc, hu⟩ | ⟨hu, hc⟩
  · refine ⟨cls.filter (fun t => t != "collapsed") ++ ["uncollapsed"], ?_, ?_, ?_, ?_⟩
    · simp [toggleCollapsed, jqParent, hasClass, hu, hc, removeClass, addClass]
    · simp [hu]
    · simp [hc]
    · intro c h1 h2
      simp [h1, h2]
  · refine ⟨cls.filter (fun t => t != "uncollapsed") ++ ["collapsed"], ?_, ?_, ?_, ?_⟩
    · simp [toggleCollapsed, jqParent, hasClass, hu, hc, removeClass, addClass]
    · simp [hu]
    · simp [hc]
    · intro c h1 h2
      simp [h1, h2]

theorem toggleCollapsed_flips_witness :
    (("collapsed" ∈ ["odd", "collapsed"] ∧ "uncollapsed" ∉ ["odd", "collapsed"]) ∨
      ("uncollapsed" ∈ ["odd", "collapsed"] ∧ "collapsed" ∉ ["odd", "collapsed"])) ∧
    ∃ cls', toggleCollapsed { parent := some ["odd", "collapsed"] } = { parent := some cls' } ∧
      ("collapsed" ∈ cls' ↔ "uncollapsed" ∈ ["odd", "collapsed"]) ∧
      ("uncollapsed" ∈ cls' ↔ "collapsed" ∈ ["odd", "collapsed"]) ∧
      ∀ c, c ≠ "collapsed" → c ≠ "uncollapsed" → (c ∈ cls' ↔ c ∈ ["odd", "collapsed"]) :=
  ⟨by decide, toggleCollapsed_flips ["odd", "collapsed"] (by decide)⟩

/-- Claim C10. For a list item that carries neither the class "collapsed" nor the class
"uncollapsed", invoking `toggleCollapsed` on its label leaves the class tokens of the item
exactly as they were. -/
theorem toggleCollapsed_neither (cls : List String) (hc : "collapsed" ∉ cls)
    (hu : "uncollapsed" ∉ cls) :
    toggleCollapsed { parent := some cls } = { parent := some cls } := by
  simp [toggleCollapsed, jqParent, hasClass, hc, hu]

theorem toggleCollapsed_neither_witness :
    ("collapsed" ∉ ["odd"] ∧ "uncollapsed" ∉ ["odd"]) ∧
      toggleCollapsed { parent := some ["odd"] } = { parent := some ["odd"] } :=
  ⟨by decide, toggleCollapsed_neither ["odd"] (by decide) (by decide)⟩

/-! ## Statements: `showContext` -/

/-- Claim C4. For every payload whose `error` property is truthy (the test the script uses
to recognise an error response), `showContext` performs exactly one effect: it sets the
content of the tree container to the value of `error` itself. The templating engine is not
called and no click handler is bound. -/
theorem showContext_error (dust : String → JSON → List (Option String)) (data error : JSON)
    (h : data.getProp "error" = some error) (ht : error.truthy = true) :
    showContext dust data = some [Effect.html "#context-tree" error] := by
  simp [showContext, h, ht]

theorem showContext_error_witness :
    ((JSON.obj [("error", JSON.str "<p>bad</p>")]).getProp "error" =
        some (JSON.str "<p>bad</p>") ∧
      (JSON.str "<p>bad</p>").truthy = true) ∧
    showContext (fun _ _ => [some "<ul></ul>"]) (JSON.obj [("error", JSON.str "<p>bad</p>")]) =
      some [Effect.html "#context-tree" (JSON.str "<p>bad</p>")] :=
  ⟨⟨rfl, rfl⟩, showContext_error _ _ _ rfl rfl⟩

/-- Claim C5, counterexample. The payload that maps the single variable name `error` to a
context node is a mapping of variable name to context node, yet `showContext` takes the error
branch on it: the node is handed to `.html`, the templating engine is not called and no
handler is bound. -/
theorem showContext_variable_named_error :
    (JSON.obj [("error", JSON.obj [("_str", JSON.str "boom")])]).isContextMapping = true ∧
    showContext (fun _ _ => [some "<ul></ul>"])
        (JSON.obj [("error", JSON.obj [("_str", JSON.str "boom")])]) =
      some [Effect.html "#context-tree" (JSON.obj [("_str", JSON.str "boom")])] ∧
    showContext (fun _ _ => [some "<ul></ul>"])
        (JSON.obj [("error", JSON.obj [("_str", JSON.str "boom")])]) ≠
      some [Effect.render "context"
              (JSON.obj [("children", JSON.obj [("error", JSON.obj [("_str", JSON.str "boom")])])]),
            Effect.html "#context-tree" (JSON.str "<ul></ul>"),
            Effect.click "li > label" "toggleCollapsed"] := by
  refine ⟨rfl, rfl, ?_⟩
  intro h
  have h2 : showContext (fun _ _ => [some "<ul></ul>"])
        (JSON.obj [("error", JSON.obj [("_str", JSON.str "boom")])]) =
      some [Effect.html "#context-tree" (JSON.obj [("_str", JSON.str "boom")])] := rfl
  rw [h2] at h
  simp at h

/-- Claim C5, amended. For every payload that is a mapping of variable name to context node
in which no variable is named `error`, `showContext` wraps the payload as
`{children: payload}`, renders that through the templating engine, puts the accumulated
output into the tree container, and only then binds `toggleCollapsed` to the labels. -/
theorem showContext_renders (dust : String → JSON → List (Option String))
    (fields : List (String × JSON))
    (_hm : (JSON.obj fields).isContextMapping = true)
    (hne : fields.lookup "error" = none) :
    showContext dust (JSON.obj fields) =
      some [Effect.render "context" (JSON.obj [("children", JSON.obj fields)]),
            Effect.html "#context-tree"
              (JSON.str ((dust "context" (JSON.obj [("children", JSON.obj fields)])).foldl
                appendOut "")),
            Effect.click "li > label" "toggleCollapsed"] := by
  simp [showContext, JSON.getProp, hne, JSON.truthy]

theorem showContext_renders_witness :
    ((JSON.obj [("x", JSON.obj [("_str", JSON.str "foo")])]).isContextMapping = true ∧
      [("x", JSON.obj [("_str", JSON.str "foo")])].lookup "error" = none) ∧
    showContext (fun _ _ => [some "<ul>", some "</ul>"])
        (JSON.obj [("x", JSON.obj [("_str", JSON.str "foo")])]) =
      some [Effect.render "context"
              (JSON.obj [("children", JSON.obj [("x", JSON.obj [("_str", JSON.str "foo")])])]),
            Effect.html "#context-tree"
              (JSON.str (((fun _ _ => [some "<ul>", some "</ul>"] :
                  String → JSON → List (Option String)) "context"
                (JSON.obj [("children",
                  JSON.obj [("x", JSON.obj [("_str", JSON.str "foo")])])])).foldl
                appendOut "")),
            Effect.click "li > label" "toggleCollapsed"] :=
  ⟨⟨rfl, rfl⟩, showContext_renders _ _ rfl rfl⟩

/-! ## Lemmas: the DOM library calls on the tree UI -/

theorem listToDom_eq_map (items : List Item) : Item.listToDom items = items.map Item.toDom := by
  induction items with
  | nil => simp [Item.listToDom]
  | cons c cs ih => simp [Item.listToDom, ih]

theorem toDom_tag (it : Item) : it.toDom.tag = "li" := by
  cases it <;> simp [Item.toDom, Node.tag]

theorem listToDom_filter_li (items : List Item) :
    (Item.listToDom items).filter (fun k => k.tag == "li") = Item.listToDom items := by
  induction items with
  | nil => simp [Item.listToDom]
  | cons c cs ih => simp [Item.listToDom, ih, toDom_tag]

theorem jqChildren_ul_li (items : List Item) :
    jqChildren [Node.elem "ul" (Item.listToDom items)] "li" = Item.listToDom items := by
  simp [jqChildren, Node.kids, listToDom_filter_li]

theorem jqChildren_toDom_ul_li (it : Item) :
    jqChildren (jqChildren [it.toDom] "ul") "li" = Item.listToDom it.children := by
  cases it with
  | leaf n v =>
    simp [jqChildren, Item.toDom, Node.kids, Node.tag, Item.children, Item.listToDom]
  | branch n v cs =>
    have h : jqChildren [(Item.branch n v cs).toDom] "ul" =
        [Node.elem "ul" (Item.listToDom cs)] := by
      simp [jqChildren, Item.toDom, Node.kids, Node.tag]
    rw [h, jqChildren_ul_li, Item.children]

theorem jqVal_find_toDom (it : Item) :
    jqVal (jqFind [it.toDom] "input") = JVal.str (readValue it.value) := by
  cases it <;>
    simp [jqFind, Item.toDom, Node.descendants, Node.descendantsOfList, Node.tag, jqVal,
      Item.value]

theorem jqAttr_find_toDom (it : Item) :
    propertyKey (jqAttr (jqFind [it.toDom] "input") "name") = it.name := by
  cases it <;>
    simp [jqFind, Item.toDom, Node.descendants, Node.descendantsOfList, Node.tag, jqAttr,
      Item.name, propertyKey]

theorem buildContext_items (fuel : Nat) (items : List Item) (data : Nat) (heap : Heap) :
    buildContext (fuel + 1) [Node.elem "ul" (Item.listToDom items)] data heap =
      items.foldlM (itemStep fuel data) heap := by
  simp only [buildContext, jqChildren_ul_li]
  induction items generalizing heap with
  | nil => simp [Item.listToDom]
  | cons c cs ih =>
    simp only [Item.listToDom, List.foldlM_cons, heapAlloc, jqVal_find_toDom,
      jqAttr_find_toDom, jqTruthy, if_true, itemStep]
    cases buildContext fuel (jqChildren [c.toDom] "ul") heap.length
        (heapSet (heap ++ [[("_str", JVal.str (readValue c.value))]]) data c.name
          (JVal.ref heap.length)) with
    | none => rfl
    | some h1 => exact ih h1

theorem itemStep_succ (fuel data : Nat) (heap : Heap) (it : Item) :
    itemStep (fuel + 1) data heap it =
      it.children.foldlM (itemStep fuel heap.length)
        (heapSet (heap ++ [[("_str", JVal.str (readValue it.value))]]) data it.name
          (JVal.ref heap.length)) := by
  cases it with
  | leaf n v =>
    simp [itemStep, buildContext, jqChildren, Item.toDom, Node.kids, Node.tag, Item.children]
  | branch n v cs =>
    have h : jqChildren [(Item.branch n v cs).toDom] "ul" =
        [Node.elem "ul" (Item.listToDom cs)] := by
      simp [jqChildren, Item.toDom, Node.kids, Node.tag]
    simp only [itemStep, h, buildContext_items, Item.children]

/-! ## Lemmas: heap, property assignment and read-back -/

theorem heapSet_length (h : Heap) (r : Nat) (k : String) (v : JVal) :
    (heapSet h r k v).length = h.length := by
  unfold heapSet
  split
  · rfl
  · split <;> simp

theorem heapSet_getElem?_ne (h : Heap) (r : Nat) (k : String) (v : JVal) (i : Nat)
    (hne : i ≠ r) : (heapSet h r k v)[i]? = h[i]? := by
  unfold heapSet
  split
  · rfl
  · split
    · rw [List.getElem?_set_ne (Ne.symm hne)]
    · rfl

theorem heapSet_getElem?_self (h : Heap) (r : Nat) (k : String) (v : JVal) (o : Obj)
    (hk : k ≠ "__proto__") (ho : h[r]? = some o) :
    (heapSet h r k v)[r]? = some (assign o k v) := by
  have hr : r < h.length := by
    rcases List.getElem?_eq_some.mp ho with ⟨hlt, _⟩
    exact hlt
  unfold heapSet
  rw [ho]
  simp [List.getElem?_set_self hr, hk]

theorem lookup_assign_self {β : Type} (o : List (String × β)) (k : String) (v : β) :
    (assign o k v).lookup k = some v := by
  induction o with
  | nil => simp [assign, List.lookup]
  | cons p rest ih =>
    obtain ⟨k', v'⟩ := p
    by_cases h : k' = k
    · subst h
      simp [assign, List.lookup]
    · have h2 : (k == k') = false := by
        simp
        exact fun e => h e.symm
      simp [assign, h, List.lookup, h2, ih]

theorem lookup_assign_ne {β : Type} (o : List (String × β)) (k : String) (v : β) (k' : String)
    (hne : k' ≠ k) : (assign o k v).lookup k' = o.lookup k' := by
  induction o with
  | nil =>
    have h2 : (k' == k) = false := by simpa using hne
    simp [assign, List.lookup, h2]
  | cons p rest ih =>
    obtain ⟨k1, v1⟩ := p
    by_cases h : k1 = k
    · subst h
      have h2 : (k' == k1) = false := by simpa using hne
      simp [assign, List.lookup, h2]
    · by_cases h3 : k' = k1
      · subst h3
        simp [assign, h, List.lookup]
      · have h4 : (k' == k1) = false := by simpa using h3
        simp [assign, h, List.lookup, h4, ih]

theorem mem_assign {β : Type} (o : List (String × β)) (k : String) (v : β) (p : String × β)
    (hp : p ∈ assign o k v) : p ∈ o ∨ p = (k, v) := by
  induction o with
  | nil =>
    simp [assign] at hp
    exact Or.inr hp
  | cons q rest ih =>
    obtain ⟨k1, v1⟩ := q
    by_cases h : k1 = k
    · subst h
      simp [assign] at hp
      rcases hp with hp | hp
      · exact Or.inr hp
      · exact Or.inl (List.mem_cons_of_mem _ hp)
    · simp [assign, h] at hp
      rcases hp with hp | hp
      · exact Or.inl (by simp [hp])
      · rcases ih hp with h1 | h1
        · exact Or.inl (List.mem_cons_of_mem _ h1)
        · exact Or.inr h1

theorem reifyFields_congr (g g' : JVal → Option JSON) (o : Obj)
    (h : ∀ p ∈ o, g p.2 = g' p.2) : reifyFields g o = reifyFields g' o := by
  induction o with
  | nil => rfl
  | cons p rest ih =>
    obtain ⟨k, v⟩ := p
    have h1 : g v = g' v := h (k, v) (by simp)
    have h2 : reifyFields g rest = reifyFields g' rest :=
      ih (fun q hq => h q (List.mem_cons_of_mem _ hq))
    simp [reifyFields, h1, h2]

theorem reifyFields_assign (g : JVal → Option JSON) (o : Obj) (k : String) (v : JVal)
    (m : List (String × JSON)) (j : JSON) (hm : reifyFields g o = some m) (hj : g v = some j) :
    reifyFields g (assign o k v) = some (assign m k j) := by
  induction o generalizing m with
  | nil =>
    simp [reifyFields] at hm
    subst hm
    simp [assign, reifyFields, hj]
  | cons p rest ih =>
    obtain ⟨k1, v1⟩ := p
    simp only [reifyFields] at hm
    cases hg : g v1 with
    | none => simp [hg] at hm
    | some j1 =>
      cases hr : reifyFields g rest with
      | none => simp [hg, hr] at hm
      | some js =>
        simp [hg, hr] at hm
        subst hm
        by_cases h : k1 = k
        · subst h
          simp [assign, reifyFields, hj, hr]
        · simp [assign, h, reifyFields, hg, ih js hr]

theorem reify_undefined (f : Nat) (h : Heap) : reify f h JVal.undefined = some JSON.undefined := by
  cases f <;> rfl

theorem reify_str (f : Nat) (h : Heap) (s : String) :
    reify f h (JVal.str s) = some (JSON.str s) := by
  cases f <;> rfl

theorem reify_frame (h h' : Heap) (r : Nat) (hf : ForwardFrom h r)
    (hsame : ∀ i, r < i → i < h.length → h'[i]? = h[i]?) :
    ∀ f i, r < i → i < h.length → reify f h' (JVal.ref i) = reify f h (JVal.ref i) := by
  intro f
  induction f with
  | zero => intro i _ _; rfl
  | succ f ih =>
    intro i hri hil
    simp only [reify, hsame i hri hil]
    cases ho : h[i]? with
    | none => rfl
    | some o =>
      have : reifyFields (reify f h') o = reifyFields (reify f h) o := by
        apply reifyFields_congr
        intro p hp
        obtain ⟨k, v⟩ := p
        cases v with
        | undefined => simp [reify_undefined]
        | str s => simp [reify_str]
        | ref j =>
          have hj := hf i o (Nat.le_of_lt hri) ho k j hp
          exact ih j (by omega) hj.2
      simp [this]

/-! ## Lemmas: the loop of `buildContext` -/

theorem depth_children (it : Item) : it.depth = 1 + Item.depthOfList it.children := by
  cases it <;> simp [Item.depth, Item.children, Item.depthOfList]

theorem entries_eq_assignAll (it : Item) :
    Item.assignAll [("_str", JSON.str (readValue it.value))] it.children = it.entries := by
  cases it <;> simp [Item.entries, Item.children, Item.value, Item.assignAll]

theorem assignAll_append (m : List (String × JSON)) (xs ys : List Item) :
    Item.assignAll m (xs ++ ys) = Item.assignAll (Item.assignAll m xs) ys := by
  induction xs generalizing m with
  | nil => simp [Item.assignAll]
  | cons c cs ih => simp [Item.assignAll, ih]

theorem depthOfList_append (xs ys : List Item) :
    Item.depthOfList (xs ++ ys) = max (Item.depthOfList xs) (Item.depthOfList ys) := by
  induction xs with
  | nil => simp [Item.depthOfList]
  | cons c cs ih => simp [Item.depthOfList, ih, Nat.max_assoc]

theorem loopPost_nil (h : Heap) (r : Nat) : LoopPost h r [] h := by
  refine ⟨Nat.le_refl _, fun _ _ _ => rfl, fun o ho => ⟨o, ho, fun _ _ => rfl⟩, fun hf => ⟨hf, ?_⟩⟩
  intro m d hm
  simpa [Item.assignAll, Item.depthOfList] using hm

theorem loopPost_append (h h1 h2 : Heap) (r : Nat) (xs ys : List Item)
    (p1 : LoopPost h r xs h1) (p2 : LoopPost h1 r ys h2) : LoopPost h r (xs ++ ys) h2 := by
  obtain ⟨l1, f1, s1, w1⟩ := p1
  obtain ⟨l2, f2, s2, w2⟩ := p2
  refine ⟨Nat.le_trans l1 l2, ?_, ?_, ?_⟩
  · intro i hi hne
    rw [f2 i (by omega) hne, f1 i hi hne]
  · intro o ho
    obtain ⟨o1, ho1, hk1⟩ := s1 o ho
    obtain ⟨o2, ho2, hk2⟩ := s2 o1 ho1
    refine ⟨o2, ho2, ?_⟩
    intro k hk
    simp only [List.map_append, List.mem_append, not_or] at hk
    rw [hk2 k hk.2, hk1 k hk.1]
  · intro hf
    obtain ⟨hf1, r1⟩ := w1 hf
    obtain ⟨hf2, r2⟩ := w2 hf1
    refine ⟨hf2, ?_⟩
    intro m d hm
    have := r2 _ _ (r1 m d hm)
    rw [assignAll_append, depthOfList_append, ← Nat.max_assoc]
    exact this

theorem ordinaryNames_iff (c : Item) :
    c.ordinaryNames = true ↔
      c.name ≠ "__proto__" ∧ Item.ordinaryNamesList c.children = true := by
  cases c <;> simp [Item.ordinaryNames, Item.name, Item.children, Item.ordinaryNamesList]

theorem ordinaryNamesList_append (xs ys : List Item) :
    Item.ordinaryNamesList (xs ++ ys) =
      (Item.ordinaryNamesList xs && Item.ordinaryNamesList ys) := by
  induction xs with
  | nil => simp [Item.ordinaryNamesList]
  | cons c cs ih => simp [Item.ordinaryNamesList, ih, Bool.and_assoc]

theorem step_post (f : Nat)
    (IH : ∀ (items : List Item) (r : Nat) (h : Heap), Item.depthOfList items ≤ f →
      Item.ordinaryNamesList items = true →
      r < h.length → ∃ h', items.foldlM (itemStep f r) h = some h' ∧ LoopPost h r items h')
    (c : Item) (r : Nat) (h : Heap) (hd : c.depth ≤ f + 1) (hc : c.ordinaryNames = true)
    (hr : r < h.length) :
    ∃ h3, itemStep (f + 1) r h c = some h3 ∧ LoopPost h r [c] h3 := by
  have hdc : Item.depthOfList c.children ≤ f := by
    have := depth_children c
    omega
  obtain ⟨hname, hkids⟩ := (ordinaryNames_iff c).mp hc
  -- the heap after the creation of the node and the assignment into `data`
  obtain ⟨h2, hh2⟩ : ∃ h2, h2 = heapSet (h ++ [[("_str", JVal.str (readValue c.value))]]) r c.name
      (JVal.ref h.length) := ⟨_, rfl⟩
  have hlen2 : h2.length = h.length + 1 := by
    rw [hh2]
    simp [heapSet_length]
  have hnode : h2[h.length]? = some [("_str", JVal.str (readValue c.value))] := by
    rw [hh2, heapSet_getElem?_ne _ _ _ _ _ (by omega)]
    simp
  have hold : ∀ i, i < h.length → i ≠ r → h2[i]? = h[i]? := by
    intro i hi hne
    rw [hh2, heapSet_getElem?_ne _ _ _ _ _ hne, List.getElem?_append_left hi]
  have hdata : ∀ o, h[r]? = some o →
      h2[r]? = some (assign o c.name (JVal.ref h.length)) := by
    intro o ho
    rw [hh2]
    apply heapSet_getElem?_self _ _ _ _ _ hname
    rw [List.getElem?_append_left hr]
    exact ho
  obtain ⟨h3, hrun, l3, f3, s3, w3⟩ := IH c.children h.length h2 hdc hkids (by omega)
  refine ⟨h3, ?_, ?_⟩
  · rw [itemStep_succ, ← hh2]
    exact hrun
  rw [hlen2] at l3 f3
  have hne : r ≠ h.length := by omega
  have h3data : ∀ o, h[r]? = some o → h3[r]? = some (assign o c.name (JVal.ref h.length)) := by
    intro o ho
    rw [f3 r (by omega) hne]
    exact hdata o ho
  have h3old : ∀ i, i < h.length → i ≠ r → h3[i]? = h[i]? := by
    intro i hi hir
    rw [f3 i (by omega) (by omega)]
    exact hold i hi hir
  refine ⟨by omega, h3old, ?_, ?_⟩
  · intro o ho
    refine ⟨_, h3data o ho, ?_⟩
    intro k hk
    simp only [List.map_cons, List.map_nil, List.mem_singleton] at hk
    exact lookup_assign_ne _ _ _ _ hk
  · intro hf
    -- the new node is the last object of the heap and holds no reference
    have hfnode : ForwardFrom h2 h.length := by
      intro i o hi ho k j hmem
      have hil : i < h.length + 1 := by
        rcases List.getElem?_eq_some.mp ho with ⟨hlt, _⟩
        rw [hlen2] at hlt
        exact hlt
      have hieq : i = h.length := by omega
      subst hieq
      rw [hnode] at ho
      simp only [Option.some.injEq] at ho
      subst ho
      simp at hmem
    have hrnode : ReadsAs h2 h.length [("_str", JSON.str (readValue c.value))] 0 := by
      refine ⟨_, hnode, ?_⟩
      intro fuel _
      simp [reifyFields, reify_str]
    obtain ⟨hf3, r3⟩ := w3 hfnode
    have hread3 := r3 _ _ hrnode
    rw [entries_eq_assignAll] at hread3
    have hfwd3 : ForwardFrom h3 r := by
      intro i o hi ho k j hmem
      by_cases hiL : h.length ≤ i
      · have := hf3 i o hiL ho k j hmem
        omega
      · by_cases hir : i = r
        · subst hir
          obtain ⟨o0, ho0⟩ : ∃ o0, h[i]? = some o0 := by
            exact ⟨h[i], List.getElem?_eq_getElem hr⟩
          rw [h3data o0 ho0] at ho
          simp only [Option.some.injEq] at ho
          subst ho
          rcases mem_assign _ _ _ _ hmem with hm | hm
          · have := hf i o0 (Nat.le_refl _) ho0 k j hm
            omega
          · simp only [Prod.mk.injEq, JVal.ref.injEq] at hm
            omega
        · rw [h3old i (by omega) hir] at ho
          have := hf i o hi ho k j hmem
          omega
    refine ⟨hfwd3, ?_⟩
    intro m d hm
    obtain ⟨o, ho, hreads⟩ := hm
    refine ⟨_, h3data o ho, ?_⟩
    intro fuel hfuel
    have hmax : max d (Item.depthOfList [c]) = max d c.depth := by
      simp [Item.depthOfList]
    rw [hmax] at hfuel
    have hsame : ∀ i, r < i → i < h.length → h3[i]? = h[i]? :=
      fun i hri hil => h3old i hil (by omega)
    have hfields : reifyFields (reify fuel h3) o = some m := by
      rw [← hreads fuel (by omega)]
      apply reifyFields_congr
      intro p hp
      obtain ⟨k, v⟩ := p
      cases v with
      | undefined => simp [reify_undefined]
      | str s => simp [reify_str]
      | ref j =>
        have hj := hf r o (Nat.le_refl _) ho k j hp
        exact reify_frame h h3 r hf hsame fuel j hj.1 hj.2
    have hnodeval : reify fuel h3 (JVal.ref h.length) = some (JSON.obj c.entries) := by
      obtain ⟨o3, ho3, hr3⟩ := hread3
      have hdep := depth_children c
      obtain ⟨fuel', rfl⟩ : ∃ fuel', fuel = fuel' + 1 := ⟨fuel - 1, by omega⟩
      simp only [reify, ho3]
      rw [hr3 fuel' (by omega)]
      rfl
    simpa [Item.assignAll] using reifyFields_assign _ _ _ _ _ _ hfields hnodeval

theorem depth_pos (it : Item) : 1 ≤ it.depth := by
  cases it <;> simp [Item.depth]

theorem itemLoop (f : Nat) :
    ∀ (items : List Item) (r : Nat) (h : Heap), Item.depthOfList items ≤ f →
      Item.ordinaryNamesList items = true → r < h.length →
      ∃ h', items.foldlM (itemStep f r) h = some h' ∧ LoopPost h r items h' := by
  induction f with
  | zero =>
    intro items r h hd _ _
    cases items with
    | nil => exact ⟨h, rfl, loopPost_nil h r⟩
    | cons c cs =>
      have := depth_pos c
      simp only [Item.depthOfList] at hd
      omega
  | succ f ih =>
    intro items
    induction items with
    | nil =>
      intro r h _ _ _
      exact ⟨h, rfl, loopPost_nil h r⟩
    | cons c cs ihl =>
      intro r h hd ho hr
      simp only [Item.depthOfList] at hd
      simp only [Item.ordinaryNamesList, Bool.and_eq_true] at ho
      obtain ⟨h3, hstep, p3⟩ := step_post f ih c r h (by omega) ho.1 hr
      obtain ⟨h', hrun, p'⟩ := ihl r h3 (by omega) ho.2 (by have := p3.1; omega)
      refine ⟨h', ?_, ?_⟩
      · simp only [List.foldlM_cons, hstep]
        exact hrun
      · exact loopPost_append h h3 h' r [c] cs p3 p'

/-- Fuel above what the depth of the items needs does not matter. -/
theorem itemLoop_run (fuel : Nat) (items : List Item) (r : Nat) (h : Heap)
    (hd : Item.depthOfList items < fuel) (ho : Item.ordinaryNamesList items = true)
    (hr : r < h.length) :
    ∃ h', buildContext fuel [Node.elem "ul" (Item.listToDom items)] r h = some h' ∧
      LoopPost h r items h' := by
  obtain ⟨f, rfl⟩ : ∃ f, fuel = f + 1 := ⟨fuel - 1, by omega⟩
  rw [buildContext_items]
  exact itemLoop f items r h (by omega) ho hr


/-! ## Lemmas: the mapping `buildContext` builds for a tree UI -/

theorem reifyFields_initObj (g : JVal → Option JSON)
    (hg : ∀ s, g (JVal.str s) = some (JSON.str s)) (init : Option String) :
    reifyFields g (initObj init) = some (initJSON init) := by
  cases init <;> simp [initObj, initJSON, reifyFields, hg]

theorem forwardFrom_initObj (init : Option String) : ForwardFrom [initObj init] 0 := by
  intro i o _ ho k j hmem
  have hi : i = 0 := by
    rcases List.getElem?_eq_some.mp ho with ⟨hlt, _⟩
    simp at hlt
    exact hlt
  subst hi
  simp only [List.getElem?_cons_zero, Option.some.injEq] at ho
  subst ho
  cases init <;> simp [initObj] at hmem

/-- The value of `data` after `buildContext` has run over the list of the given items, none
of them named `__proto__`, for any fuel above their depth: the initial properties with the
assignments for the items. -/
theorem buildFrom_items (fuel : Nat) (init : Option String) (items : List Item)
    (hf : Item.depthOfList items < fuel) (ho : Item.ordinaryNamesList items = true) :
    buildFrom fuel init [Node.elem "ul" (Item.listToDom items)] =
      some (JSON.obj (Item.assignAll (initJSON init) items)) := by
  obtain ⟨h', hrun, _, _, _, hw⟩ := itemLoop_run fuel items 0 [initObj init] hf ho (by simp)
  have hreads : ReadsAs [initObj init] 0 (initJSON init) 0 := by
    refine ⟨_, rfl, ?_⟩
    intro f _
    exact reifyFields_initObj _ (fun s => reify_str f _ s) init
  obtain ⟨o, ho', hread⟩ := (hw (forwardFrom_initObj init)).2 _ _ hreads
  obtain ⟨f, rfl⟩ : ∃ f, fuel = f + 1 := ⟨fuel - 1, by omega⟩
  have hrun' : buildContext (f + 1) [Node.elem "ul" (Item.listToDom items)]
      ([] : Heap).length ([] ++ [initObj init]) = some h' := by
    simpa using hrun
  simp only [buildFrom, heapAlloc, hrun']
  simp only [List.length_nil, reify, ho']
  rw [hread f (by omega)]
  rfl

/-- A call on an empty set of elements leaves `data` as it is. -/
theorem buildFrom_empty (fuel : Nat) (init : Option String) (hf : 0 < fuel) :
    buildFrom fuel init [] = some (JSON.obj (initJSON init)) := by
  obtain ⟨f, rfl⟩ : ∃ f, fuel = f + 1 := ⟨fuel - 1, by omega⟩
  simp only [buildFrom, heapAlloc, buildContext, jqChildren, List.map_nil, List.flatten_nil,
    List.foldlM_nil, List.nil_append, List.length_nil]
  show reify (f + 1) [initObj init] (JVal.ref 0) = some (JSON.obj (initJSON init))
  simp only [reify, List.getElem?_cons_zero]
  rw [reifyFields_initObj _ (fun s => reify_str f _ s) init]
  rfl

theorem sendContextData_treePage (fuel : Nat) (items : List Item) (hidden : String) :
    sendContextData fuel (treePage items hidden) =
      buildFrom fuel none [Node.elem "ul" (Item.listToDom items)] := by
  have h : jqChildren [(treePage items hidden).contextTree] "ul" =
      [Node.elem "ul" (Item.listToDom items)] := by
    simp [jqChildren, treePage, Node.kids, Node.tag]
  simp only [sendContextData, buildFrom, h]
  rfl

theorem asRead_name (c : Item) : (Item.asRead c).name = c.name := by
  cases c <;> rfl

theorem assign_of_not_mem {β : Type} (m : List (String × β)) (k : String) (v : β)
    (hk : k ∉ m.map Prod.fst) : assign m k v = m ++ [(k, v)] := by
  induction m with
  | nil => rfl
  | cons p rest ih =>
    obtain ⟨k1, v1⟩ := p
    simp only [List.map_cons, List.mem_cons, not_or] at hk
    have h1 : ¬ k1 = k := fun e => hk.1 e.symm
    simp [assign, h1, ih hk.2]

theorem assignAll_distinct (n : Nat) :
    ∀ (items : List Item) (m : List (String × JSON)), Item.depthOfList items ≤ n →
      (items.map Item.name).Nodup → (∀ k ∈ m.map Prod.fst, k ∉ items.map Item.name) →
      Item.distinctBelowList items = true →
      Item.assignAll m items = m ++ Item.specContext (Item.asReadList items) := by
  induction n with
  | zero =>
    intro items m hd _ _ _
    cases items with
    | nil => simp [Item.assignAll, Item.specContext, Item.asReadList]
    | cons c cs =>
      have := depth_pos c
      simp only [Item.depthOfList] at hd
      omega
  | succ n ih =>
    intro items
    induction items with
    | nil =>
      intro m _ _ _ _
      simp [Item.assignAll, Item.specContext, Item.asReadList]
    | cons c cs ihl =>
      intro m hd hnd hdisj hdb
      simp only [Item.depthOfList] at hd
      simp only [List.map_cons, List.nodup_cons] at hnd
      simp only [Item.distinctBelowList, Bool.and_eq_true] at hdb
      have hent : c.entries = (Item.asRead c).specNode := by
        cases c with
        | leaf nm v => rfl
        | branch nm v ch =>
          simp only [Item.distinctBelow, Bool.and_eq_true, decide_eq_true_eq,
            List.nodup_cons] at hdb
          simp only [Item.depth] at hd
          have := ih ch [("_str", JSON.str (readValue v))] (by omega) hdb.1.1.2
            (by
              intro k hk
              simp only [List.map_cons, List.map_nil, List.mem_singleton] at hk
              subst hk
              exact hdb.1.1.1)
            hdb.1.2
          simpa [Item.entries, Item.specNode, Item.asRead] using this
      have hk : c.name ∉ m.map Prod.fst := by
        intro hmem
        exact hdisj _ hmem (by simp)
      simp only [Item.assignAll, Item.specContext, Item.asReadList, asRead_name, hent,
        assign_of_not_mem m _ _ hk]
      rw [ihl (m ++ [(c.name, JSON.obj (Item.asRead c).specNode)]) (by omega) hnd.2 ?_ hdb.2]
      · simp
      · intro k hkm
        simp only [List.map_append, List.map_cons, List.map_nil, List.mem_append,
          List.mem_singleton] at hkm
        rcases hkm with hkm | hkm
        · intro hin
          exact hdisj k hkm (by simp [hin])
        · subst hkm
          exact hnd.1


/-! ## Lemmas: keys of the mapping, later assignments, edits -/

theorem assign_keys {β : Type} (m : List (String × β)) (k : String) (v : β) :
    (assign m k v).map Prod.fst =
      if k ∈ m.map Prod.fst then m.map Prod.fst else m.map Prod.fst ++ [k] := by
  induction m with
  | nil => simp [assign]
  | cons p rest ih =>
    obtain ⟨k1, v1⟩ := p
    by_cases h : k1 = k
    · subst h
      simp [assign]
    · have h' : ¬ k = k1 := fun e => h e.symm
      by_cases hm : k ∈ rest.map Prod.fst
      · simp only [assign, h, beq_iff_eq, if_false, List.map_cons, ih, hm, if_true,
          List.mem_cons, or_true]
      · simp only [assign, h, beq_iff_eq, if_false, List.map_cons, ih, hm, List.mem_cons,
          h', or_self, List.cons_append]

theorem assign_keys_nodup {β : Type} (m : List (String × β)) (k : String) (v : β)
    (hm : (m.map Prod.fst).Nodup) : ((assign m k v).map Prod.fst).Nodup := by
  rw [assign_keys]
  split
  · exact hm
  · rename_i hk
    rw [List.nodup_append]
    refine ⟨hm, by simp, ?_⟩
    intro a ha hb
    simp only [List.mem_singleton] at hb
    subst hb
    exact hk ha

theorem assignAll_keys_nodup (items : List Item) (m : List (String × JSON))
    (hm : (m.map Prod.fst).Nodup) : ((Item.assignAll m items).map Prod.fst).Nodup := by
  induction items generalizing m with
  | nil => simpa [Item.assignAll] using hm
  | cons c cs ih =>
    simp only [Item.assignAll]
    exact ih _ (assign_keys_nodup m _ _ hm)

theorem lookup_assignAll_of_not_mem (items : List Item) (m : List (String × JSON)) (k : String)
    (hk : k ∉ items.map Item.name) : (Item.assignAll m items).lookup k = m.lookup k := by
  induction items generalizing m with
  | nil => simp [Item.assignAll]
  | cons c cs ih =>
    simp only [List.map_cons, List.mem_cons, not_or] at hk
    simp only [Item.assignAll]
    rw [ih _ hk.2, lookup_assign_ne _ _ _ _ hk.1]

theorem filter_key_length_one {β : Type} (m : List (String × β)) (k : String) (v : β)
    (hm : (m.map Prod.fst).Nodup) (hl : m.lookup k = some v) :
    (m.filter (fun p => p.1 == k)).length = 1 := by
  induction m with
  | nil => simp [List.lookup] at hl
  | cons p rest ih =>
    obtain ⟨k1, v1⟩ := p
    simp only [List.map_cons, List.nodup_cons] at hm
    by_cases h : k1 = k
    · subst h
      have hrest : rest.filter (fun p => p.1 == k1) = [] := by
        rw [List.filter_eq_nil_iff]
        intro q hq hq1
        simp only [beq_iff_eq] at hq1
        apply hm.1
        rw [← hq1]
        exact List.mem_map_of_mem Prod.fst hq
      simp [List.filter_cons, hrest]
    · have h2 : (k == k1) = false := by
        simp only [beq_eq_false_iff_ne, ne_eq]
        exact fun e => h e.symm
      simp only [List.lookup, h2] at hl
      have h3 : (k1 == k) = false := by simpa using h
      simp [List.filter_cons, h3, ih hm.2 hl]

theorem updateKey_cons_eq (k : String) (f : JSON → JSON) (k1 : String) (v1 : JSON)
    (rest : List (String × JSON)) (h : k1 = k) :
    updateKey k f ((k1, v1) :: rest) = (k1, f v1) :: updateKey k f rest := by
  simp [updateKey, h]

theorem updateKey_cons_ne (k : String) (f : JSON → JSON) (k1 : String) (v1 : JSON)
    (rest : List (String × JSON)) (h : k1 ≠ k) :
    updateKey k f ((k1, v1) :: rest) = (k1, v1) :: updateKey k f rest := by
  simp [updateKey, h]

theorem assign_cons_eq {β : Type} (k : String) (v : β) (k1 : String) (v1 : β)
    (rest : List (String × β)) (h : k1 = k) :
    assign ((k1, v1) :: rest) k v = (k1, v) :: rest := by
  simp [assign, h]

theorem assign_cons_ne {β : Type} (k : String) (v : β) (k1 : String) (v1 : β)
    (rest : List (String × β)) (h : k1 ≠ k) :
    assign ((k1, v1) :: rest) k v = (k1, v1) :: assign rest k v := by
  simp [assign, h]

theorem updateKey_of_not_mem (k : String) (f : JSON → JSON) (m : List (String × JSON))
    (hk : k ∉ m.map Prod.fst) : updateKey k f m = m := by
  induction m with
  | nil => rfl
  | cons p rest ih =>
    obtain ⟨k1, v1⟩ := p
    simp only [List.map_cons, List.mem_cons, not_or] at hk
    rw [updateKey_cons_ne k f k1 v1 rest (fun e => hk.1 e.symm), ih hk.2]

theorem updateKey_assign_self (k : String) (f : JSON → JSON) (m : List (String × JSON))
    (e : JSON) (hm : (m.map Prod.fst).Nodup) :
    assign m k (f e) = updateKey k f (assign m k e) := by
  induction m with
  | nil =>
    show [(k, f e)] = updateKey k f [(k, e)]
    rw [updateKey_cons_eq k f k e [] rfl]
    rfl
  | cons p rest ih =>
    obtain ⟨k1, v1⟩ := p
    simp only [List.map_cons, List.nodup_cons] at hm
    by_cases h : k1 = k
    · rw [assign_cons_eq k _ k1 v1 rest h, assign_cons_eq k _ k1 v1 rest h,
        updateKey_cons_eq k f k1 e rest h, updateKey_of_not_mem k f rest (h ▸ hm.1)]
    · rw [assign_cons_ne k _ k1 v1 rest h, assign_cons_ne k _ k1 v1 rest h,
        updateKey_cons_ne k f k1 v1 _ h, ih hm.2]

theorem updateKey_assign_ne (k : String) (f : JSON → JSON) (m : List (String × JSON))
    (k' : String) (e : JSON) (hne : k' ≠ k) :
    assign (updateKey k f m) k' e = updateKey k f (assign m k' e) := by
  induction m with
  | nil =>
    show assign [] k' e = updateKey k f [(k', e)]
    rw [updateKey_cons_ne k f k' e [] hne]
    rfl
  | cons p rest ih =>
    obtain ⟨k1, v1⟩ := p
    by_cases h : k1 = k'
    · have h2 : k1 ≠ k := fun e2 => hne (h ▸ e2)
      rw [updateKey_cons_ne k f k1 v1 rest h2, assign_cons_eq k' e k1 v1 _ h,
        assign_cons_eq k' e k1 v1 _ h, updateKey_cons_ne k f k1 e rest h2]
    · by_cases h2 : k1 = k
      · rw [updateKey_cons_eq k f k1 v1 rest h2, assign_cons_ne k' e k1 _ _ h,
          assign_cons_ne k' e k1 _ _ h, updateKey_cons_eq k f k1 v1 _ h2, ih]
      · rw [updateKey_cons_ne k f k1 v1 rest h2, assign_cons_ne k' e k1 _ _ h,
          assign_cons_ne k' e k1 _ _ h, updateKey_cons_ne k f k1 v1 _ h2, ih]

theorem assignAll_updateKey (k : String) (f : JSON → JSON) (items : List Item)
    (m : List (String × JSON)) (hk : k ∉ items.map Item.name) :
    Item.assignAll (updateKey k f m) items = updateKey k f (Item.assignAll m items) := by
  induction items generalizing m with
  | nil => simp [Item.assignAll]
  | cons c cs ih =>
    simp only [List.map_cons, List.mem_cons, not_or] at hk
    simp only [Item.assignAll]
    rw [updateKey_assign_ne k f m c.name _ (fun e => hk.1 e.symm), ih _ hk.2]

/-- Replacing one item of a list by an item of the same name changes the mapping only in
the value under that name, provided no later sibling has the name. -/
theorem assignAll_replace (m : List (String × JSON)) (before after : List Item) (x y : Item)
    (g : List (String × JSON) → List (String × JSON)) (hn : y.name = x.name)
    (he : y.entries = g x.entries) (hm : (m.map Prod.fst).Nodup)
    (ha : x.name ∉ after.map Item.name) :
    Item.assignAll m (before ++ y :: after) =
      updateKey x.name (onObj g) (Item.assignAll m (before ++ x :: after)) := by
  simp only [assignAll_append, Item.assignAll, hn, he]
  have h1 : JSON.obj (g x.entries) = onObj g (JSON.obj x.entries) := rfl
  rw [h1, updateKey_assign_self x.name (onObj g) _ _ (assignAll_keys_nodup before m hm),
    assignAll_updateKey _ _ _ _ ha]

theorem setValue_name (v : String) (it : Item) : (it.setValue v).name = it.name := by
  cases it <;> rfl

theorem setValue_depth (v : String) (it : Item) : (it.setValue v).depth = it.depth := by
  cases it <;> simp [Item.setValue, Item.depth]

theorem setValue_entries (v : String) (it : Item) (hs : "_str" ∉ it.children.map Item.name) :
    (it.setValue v).entries = setStrAt [] (readValue v) it.entries := by
  have h1 : (it.setValue v).entries =
      Item.assignAll
        (updateKey "_str" (fun _ => JSON.str (readValue v))
          [("_str", JSON.str (readValue it.value))])
        it.children := by
    cases it <;> simp [Item.setValue, Item.entries, Item.children, updateKey, Item.assignAll]
  rw [h1, assignAll_updateKey _ _ _ _ hs, entries_eq_assignAll]
  rfl

theorem assignAll_edit (loc : Loc) (v : String) :
    ∀ m : List (String × JSON), (m.map Prod.fst).Nodup → loc.visible = true →
      Item.assignAll m (loc.edit v) =
        setStrAt loc.names (readValue v) (Item.assignAll m loc.tree) := by
  induction loc with
  | here before it after =>
    intro m hm hv
    simp only [Loc.visible, Bool.and_eq_true, decide_eq_true_eq] at hv
    simp only [Loc.edit, Loc.tree, Loc.names, setStrAt]
    exact assignAll_replace m before after it (it.setValue v) (setStrAt [] (readValue v))
      (setValue_name v it) (setValue_entries v it hv.2) hm hv.1
  | inside before n val inner after ih =>
    intro m hm hv
    simp only [Loc.visible, Bool.and_eq_true, decide_eq_true_eq] at hv
    simp only [Loc.edit, Loc.tree, Loc.names, setStrAt]
    have he : (Item.branch n val (inner.edit v)).entries =
        setStrAt inner.names (readValue v) (Item.branch n val inner.tree).entries := by
      simp only [Item.entries]
      exact ih _ (by simp) hv.2
    exact assignAll_replace m before after (Item.branch n val inner.tree)
      (Item.branch n val (inner.edit v)) (setStrAt inner.names (readValue v)) rfl he hm hv.1

theorem depthOfList_edit (loc : Loc) (v : String) :
    Item.depthOfList (loc.edit v) = Item.depthOfList loc.tree := by
  induction loc with
  | here before it after =>
    simp [Loc.edit, Loc.tree, depthOfList_append, Item.depthOfList, setValue_depth]
  | inside before n val inner after ih =>
    simp [Loc.edit, Loc.tree, depthOfList_append, Item.depthOfList, Item.depth, ih]

theorem ordinaryNamesList_edit (loc : Loc) (v : String) :
    Item.ordinaryNamesList (loc.edit v) = Item.ordinaryNamesList loc.tree := by
  induction loc with
  | here before it after =>
    cases it <;>
      simp [Loc.edit, Loc.tree, ordinaryNamesList_append, Item.ordinaryNamesList,
        Item.setValue, Item.ordinaryNames]
  | inside before n val inner after ih =>
    simp [Loc.edit, Loc.tree, ordinaryNamesList_append, Item.ordinaryNamesList,
      Item.ordinaryNames, ih]

theorem lookup_updateKey (k : String) (f : JSON → JSON) (m : List (String × JSON)) :
    (updateKey k f m).lookup k = (m.lookup k).map f := by
  induction m with
  | nil => rfl
  | cons p rest ih =>
    obtain ⟨k1, v1⟩ := p
    by_cases h : k1 = k
    · subst h
      rw [updateKey_cons_eq k1 f k1 v1 rest rfl]
      simp [List.lookup]
    · have h2 : (k == k1) = false := by
        simp only [beq_eq_false_iff_ne, ne_eq]
        exact fun e => h e.symm
      rw [updateKey_cons_ne k f k1 v1 rest h]
      simp [List.lookup, h2, ih]

/-- After `setStrAt`, the `_str` at the path is the new string, provided the path led to a
`_str` before. -/
theorem strAt_setStrAt (path : List String) (v : String) :
    ∀ (m : List (String × JSON)) (j : JSON), strAt path m = some j →
      strAt path (setStrAt path v m) = some (JSON.str v) := by
  induction path with
  | nil =>
    intro m j hj
    simp only [strAt] at hj
    simp [strAt, setStrAt, lookup_updateKey, hj]
  | cons k ks ih =>
    intro m j hj
    simp only [strAt] at hj
    simp only [strAt, setStrAt, lookup_updateKey]
    cases hm : m.lookup k with
    | none => simp [hm] at hj
    | some e =>
      cases e with
      | obj fields =>
        simp only [hm] at hj
        simp only [Option.map_some', onObj]
        exact ih fields j hj
      | undefined => simp [hm] at hj
      | null => simp [hm] at hj
      | bool b => simp [hm] at hj
      | str s => simp [hm] at hj
      | arr items => simp [hm] at hj

theorem lookup_assignAll_item (m : List (String × JSON)) (before after : List Item) (it : Item)
    (ha : it.name ∉ after.map Item.name) :
    (Item.assignAll m (before ++ it :: after)).lookup it.name = some (JSON.obj it.entries) := by
  rw [assignAll_append]
  simp only [Item.assignAll]
  rw [lookup_assignAll_of_not_mem _ _ _ ha, lookup_assign_self]

theorem entries_lookup_str (it : Item) (hs : "_str" ∉ it.children.map Item.name) :
    it.entries.lookup "_str" = some (JSON.str (readValue it.value)) := by
  rw [← entries_eq_assignAll, lookup_assignAll_of_not_mem _ _ _ hs]
  simp [List.lookup]

/-- In the mapping built for a tree, the `_str` reached along the names of an input that is
not shadowed is the value read from that input. -/
theorem strAt_assignAll (loc : Loc) :
    ∀ m : List (String × JSON), loc.visible = true →
      strAt loc.names (Item.assignAll m loc.tree) =
        some (JSON.str (readValue loc.item.value)) := by
  induction loc with
  | here before it after =>
    intro m hv
    simp only [Loc.visible, Bool.and_eq_true, decide_eq_true_eq] at hv
    simp only [Loc.names, Loc.tree, Loc.item, strAt, lookup_assignAll_item m before after it hv.1]
    exact entries_lookup_str it hv.2
  | inside before n val inner after ih =>
    intro m hv
    simp only [Loc.visible, Bool.and_eq_true, decide_eq_true_eq] at hv
    have hl := lookup_assignAll_item m before after (Item.branch n val inner.tree) hv.1
    simp only [Item.name] at hl
    simp only [Loc.names, Loc.tree, Loc.item, strAt, hl, Item.entries]
    exact ih _ hv.2


/-! ## Statements: `buildContext` and `sendContext` -/

/-- Claim C1, counterexample. `buildContext` started with an empty mapping does not yield
the mapping the claim describes on these trees, each of which has list items holding their
own input followed by an optional nested list:
two sibling inputs both named `a` (values "1", "2") give the single key `a` with `_str` =
"2"; the item `b` (value "2") with a nested input named `_str` (value "3") gives an object
under `b` whose `_str` is the object of the child; an input named `__proto__` gives no key at
all; an input whose value holds a carriage return gets a `_str` without it. -/
theorem buildContext_not_one_key_per_item :
    (buildFrom 2 none [Node.elem "ul" (Item.listToDom [Item.leaf "a" "1", Item.leaf "a" "2"])] =
        some (JSON.obj [("a", JSON.obj [("_str", JSON.str "2")])]) ∧
      buildFrom 2 none
          [Node.elem "ul" (Item.listToDom [Item.leaf "a" "1", Item.leaf "a" "2"])] ≠
        some (JSON.obj (Item.specContext [Item.leaf "a" "1", Item.leaf "a" "2"]))) ∧
    (buildFrom 3 none
          [Node.elem "ul" (Item.listToDom [Item.branch "b" "2" [Item.leaf "_str" "3"]])] =
        some (JSON.obj [("b", JSON.obj [("_str", JSON.obj [("_str", JSON.str "3")])])]) ∧
      buildFrom 3 none
          [Node.elem "ul" (Item.listToDom [Item.branch "b" "2" [Item.leaf "_str" "3"]])] ≠
        some (JSON.obj (Item.specContext [Item.branch "b" "2" [Item.leaf "_str" "3"]]))) ∧
    (buildFrom 2 none [Node.elem "ul" (Item.listToDom [Item.leaf "__proto__" "1"])] =
        some (JSON.obj []) ∧
      buildFrom 2 none [Node.elem "ul" (Item.listToDom [Item.leaf "__proto__" "1"])] ≠
        some (JSON.obj (Item.specContext [Item.leaf "__proto__" "1"]))) ∧
    (buildFrom 2 none
          [Node.elem "ul"
            (Item.listToDom [Item.leaf "a" (String.mk ['x', Char.ofNat 13, 'y'])])] =
        some (JSON.obj [("a", JSON.obj [("_str", JSON.str "xy")])]) ∧
      buildFrom 2 none
          [Node.elem "ul"
            (Item.listToDom [Item.leaf "a" (String.mk ['x', Char.ofNat 13, 'y'])])] ≠
        some (JSON.obj
          (Item.specContext [Item.leaf "a" (String.mk ['x', Char.ofNat 13, 'y'])]))) := by
  have h1 : buildFrom 2 none
      [Node.elem "ul" (Item.listToDom [Item.leaf "a" "1", Item.leaf "a" "2"])] =
      some (JSON.obj [("a", JSON.obj [("_str", JSON.str "2")])]) := rfl
  have h2 : buildFrom 3 none
      [Node.elem "ul" (Item.listToDom [Item.branch "b" "2" [Item.leaf "_str" "3"]])] =
      some (JSON.obj [("b", JSON.obj [("_str", JSON.obj [("_str", JSON.str "3")])])]) := rfl
  have h3 : buildFrom 2 none [Node.elem "ul" (Item.listToDom [Item.leaf "__proto__" "1"])] =
      some (JSON.obj []) := rfl
  have h4 : buildFrom 2 none
      [Node.elem "ul" (Item.listToDom [Item.leaf "a" (String.mk ['x', Char.ofNat 13, 'y'])])] =
      some (JSON.obj [("a", JSON.obj [("_str", JSON.str "xy")])]) := rfl
  refine ⟨⟨h1, ?_⟩, ⟨h2, ?_⟩, ⟨h3, ?_⟩, ⟨h4, ?_⟩⟩
  · rw [h1]
    simp [Item.specContext, Item.specNode, Item.name]
  · rw [h2]
    simp [Item.specContext, Item.specNode, Item.name]
  · rw [h3]
    simp [Item.specContext, Item.specNode, Item.name]
  · rw [h4]
    simp only [Item.specContext, Item.specNode, Item.name, ne_eq, Option.some.injEq,
      JSON.obj.injEq, List.cons.injEq, Prod.mk.injEq, JSON.str.injEq, and_true, true_and]
    decide

/-- Claim C1, amended. On a tree UI in which every list item holds its own input followed
by an optional nested list, in which no two sibling inputs share a name, no input is named
`__proto__` and no input of a nested list is named `_str`, `buildContext` started with an
empty mapping (and given fuel above the nesting depth) returns, and yields the mapping that
has one key per list item, the name of its input, whose value is the object holding `_str` =
the current value of the input as `.val()` reads it (carriage returns removed) followed by
the entries built in the same way from the nested list of the item. -/
theorem buildContext_mapping (fuel : Nat) (items : List Item)
    (hn : (items.map Item.name).Nodup) (hb : Item.distinctBelowList items = true)
    (ho : Item.ordinaryNamesList items = true)
    (hf : Item.depthOfList items < fuel) :
    buildFrom fuel none [Node.elem "ul" (Item.listToDom items)] =
      some (JSON.obj (Item.specContext (Item.asReadList items))) := by
  rw [buildFrom_items fuel none items hf ho]
  have := assignAll_distinct (Item.depthOfList items) items [] (Nat.le_refl _) hn (by simp) hb
  simpa [initJSON] using this

theorem buildContext_mapping_witness :
    (([Item.leaf "a" "1", Item.branch "b" "2" [Item.leaf "c" "3"]].map Item.name).Nodup ∧
      Item.distinctBelowList [Item.leaf "a" "1", Item.branch "b" "2" [Item.leaf "c" "3"]] =
        true ∧
      Item.ordinaryNamesList [Item.leaf "a" "1", Item.branch "b" "2" [Item.leaf "c" "3"]] =
        true ∧
      Item.depthOfList [Item.leaf "a" "1", Item.branch "b" "2" [Item.leaf "c" "3"]] < 3) ∧
    buildFrom 3 none
        [Node.elem "ul"
          (Item.listToDom [Item.leaf "a" "1", Item.branch "b" "2" [Item.leaf "c" "3"]])] =
      some (JSON.obj [("a", JSON.obj [("_str", JSON.str "1")]),
        ("b", JSON.obj [("_str", JSON.str "2"), ("c", JSON.obj [("_str", JSON.str "3")])])]) :=
  ⟨⟨by decide, by decide, by decide, by decide⟩,
    buildContext_mapping 3 [Item.leaf "a" "1", Item.branch "b" "2" [Item.leaf "c" "3"]]
      (by decide) (by decide) (by decide) (by decide)⟩

/-- Claim C7, failing input. For the item `b` (value "2") whose nested list holds an item
with the input name `_str` (value "3"), `buildContext` called with `data = {}` ends in a
heap in which the object produced for `b` (reference 1, stored in `data` under `b`) has a
`_str` property that is a reference to the object of the child, not the string "2" held by
the input of `b`; read back, `data` is `{b: {_str: {_str: "3"}}}`. The comment in the source
says that `_str` is the string representation even for a node with children. -/
theorem buildContext_child_named_str :
    buildContext 3
        [Node.elem "ul" (Item.listToDom [Item.branch "b" "2" [Item.leaf "_str" "3"]])] 0 [[]] =
      some [[("b", JVal.ref 1)], [("_str", JVal.ref 2)], [("_str", JVal.str "3")]] ∧
    List.lookup "_str" [("_str", JVal.ref 2)] ≠ some (JVal.str "2") ∧
    buildFrom 3 none
        [Node.elem "ul" (Item.listToDom [Item.branch "b" "2" [Item.leaf "_str" "3"]])] =
      some (JSON.obj [("b", JSON.obj [("_str", JSON.obj [("_str", JSON.str "3")])])]) := by
  refine ⟨by decide, by decide, rfl⟩

/-- Claim C9, counterexample. For a list with two sibling inputs both named `__proto__`,
the assignments `data[name] = node` set the prototype of `data` and create no property: the
resulting mapping has no entry under that name, not a single one. -/
theorem buildContext_siblings_named_proto :
    (Item.leaf "__proto__" "1").name = (Item.leaf "__proto__" "2").name ∧
    buildFrom 2 none
        [Node.elem "ul"
          (Item.listToDom [Item.leaf "__proto__" "1", Item.leaf "__proto__" "2"])] =
      some (JSON.obj []) ∧
    (([] : List (String × JSON)).filter
      (fun p => p.1 == (Item.leaf "__proto__" "2").name)).length ≠ 1 := by
  refine ⟨by decide, rfl, by decide⟩

/-- Claim C9, amended. For every list processed by `buildContext`, with `data` the empty
object of `sendContext` or the new node of a recursive call, in which no input is named
`__proto__` and two sibling items `x` and `y` have inputs with the same name, `y` being the
later one (no sibling after `y` has that name), the call returns for fuel above the nesting
depth, and the resulting mapping has exactly one entry under that name. Its value is the
entry built from `y`: the object `y.entries`, which is what the recursive call builds from a
new node `{"_str": value of y}` and the nested list of `y`, which is the value `buildContext`
puts under the name for the list holding `y` alone, and whose `_str` is the value read from
the input of `y` unless a nested input of `y` is named `_str`. Nothing of the entry of `x`
remains. -/
theorem buildContext_later_sibling_wins (fuel : Nat) (init : Option String)
    (before between after : List Item) (x y : Item)
    (_hxy : x.name = y.name) (hafter : y.name ∉ after.map Item.name)
    (ho : Item.ordinaryNamesList (before ++ x :: (between ++ y :: after)) = true)
    (hf : Item.depthOfList (before ++ x :: (between ++ y :: after)) < fuel) :
    ∃ m,
      buildFrom fuel init
          [Node.elem "ul" (Item.listToDom (before ++ x :: (between ++ y :: after)))] =
        some (JSON.obj m) ∧
      (m.filter (fun p => p.1 == y.name)).length = 1 ∧
      m.lookup y.name = some (JSON.obj y.entries) ∧
      buildFrom fuel (some (readValue y.value)) (jqChildren [y.toDom] "ul") =
        some (JSON.obj y.entries) ∧
      buildFrom fuel none [Node.elem "ul" (Item.listToDom [y])] =
        some (JSON.obj [(y.name, JSON.obj y.entries)]) ∧
      ("_str" ∉ y.children.map Item.name →
        y.entries.lookup "_str" = some (JSON.str (readValue y.value))) := by
  have hsplit : before ++ x :: (between ++ y :: after) =
      (before ++ x :: between) ++ y :: after := by simp
  have hoy : y.ordinaryNames = true := by
    rw [hsplit, ordinaryNamesList_append] at ho
    simp only [Item.ordinaryNamesList, Bool.and_eq_true] at ho
    exact ho.2.1
  have hdy : y.depth < fuel := by
    simp only [depthOfList_append, Item.depthOfList] at hf
    omega
  have hkeys : ((initJSON init).map Prod.fst).Nodup := by
    cases init <;> simp [initJSON]
  have hlook : (Item.assignAll (initJSON init)
      (before ++ x :: (between ++ y :: after))).lookup y.name = some (JSON.obj y.entries) := by
    rw [hsplit]
    exact lookup_assignAll_item _ _ _ _ hafter
  refine ⟨_, buildFrom_items fuel init _ hf ho, ?_, hlook, ?_, ?_, entries_lookup_str y⟩
  · exact filter_key_length_one _ _ _ (assignAll_keys_nodup _ _ hkeys) hlook
  · cases y with
    | leaf n v =>
      have h : jqChildren [(Item.leaf n v).toDom] "ul" = [] := by
        simp [jqChildren, Item.toDom, Node.kids, Node.tag]
      rw [h, buildFrom_empty fuel _ (by omega)]
      rfl
    | branch n v cs =>
      have h : jqChildren [(Item.branch n v cs).toDom] "ul" =
          [Node.elem "ul" (Item.listToDom cs)] := by
        simp [jqChildren, Item.toDom, Node.kids, Node.tag]
      have hcs := (ordinaryNames_iff _).mp hoy
      simp only [Item.depth] at hdy
      rw [h, buildFrom_items fuel _ cs (by omega) hcs.2]
      rfl
  · rw [buildFrom_items fuel none [y] (by simp only [Item.depthOfList]; omega)
      (by simp [Item.ordinaryNamesList, hoy])]
    simp [Item.assignAll, assign, initJSON]

theorem buildContext_later_sibling_wins_witness :
    ((Item.leaf "a" "1").name = (Item.branch "a" "2" [Item.leaf "c" "3"]).name ∧
      (Item.branch "a" "2" [Item.leaf "c" "3"]).name ∉
        [Item.leaf "d" "4"].map Item.name ∧
      Item.ordinaryNamesList
        ([] ++ Item.leaf "a" "1" ::
          ([] ++ Item.branch "a" "2" [Item.leaf "c" "3"] :: [Item.leaf "d" "4"])) = true ∧
      Item.depthOfList
        ([] ++ Item.leaf "a" "1" ::
          ([] ++ Item.branch "a" "2" [Item.leaf "c" "3"] :: [Item.leaf "d" "4"])) < 3) ∧
    ∃ m,
      buildFrom 3 none
          [Node.elem "ul"
            (Item.listToDom
              ([] ++ Item.leaf "a" "1" ::
                ([] ++ Item.branch "a" "2" [Item.leaf "c" "3"] :: [Item.leaf "d" "4"])))] =
        some (JSON.obj m) ∧
      (m.filter (fun p => p.1 == (Item.branch "a" "2" [Item.leaf "c" "3"]).name)).length = 1 ∧
      m.lookup (Item.branch "a" "2" [Item.leaf "c" "3"]).name =
        some (JSON.obj (Item.branch "a" "2" [Item.leaf "c" "3"]).entries) ∧
      buildFrom 3 (some (readValue (Item.branch "a" "2" [Item.leaf "c" "3"]).value))
          (jqChildren [(Item.branch "a" "2" [Item.leaf "c" "3"]).toDom] "ul") =
        some (JSON.obj (Item.branch "a" "2" [Item.leaf "c" "3"]).entries) ∧
      buildFrom 3 none
          [Node.elem "ul" (Item.listToDom [Item.branch "a" "2" [Item.leaf "c" "3"]])] =
        some (JSON.obj [((Item.branch "a" "2" [Item.leaf "c" "3"]).name,
          JSON.obj (Item.branch "a" "2" [Item.leaf "c" "3"]).entries)]) ∧
      ("_str" ∉ (Item.branch "a" "2" [Item.leaf "c" "3"]).children.map Item.name →
        (Item.branch "a" "2" [Item.leaf "c" "3"]).entries.lookup "_str" =
          some (JSON.str (readValue (Item.branch "a" "2" [Item.leaf "c" "3"]).value))) :=
  ⟨⟨by decide, by decide, by decide, by decide⟩,
    buildContext_later_sibling_wins 3 none [] [] [Item.leaf "d" "4"] (Item.leaf "a" "1")
      (Item.branch "a" "2" [Item.leaf "c" "3"]) (by decide) (by decide) (by decide)
      (by decide)⟩

/-- Claim C6, counterexample. In the tree with two sibling inputs named `a` (values "1" and
"2"), changing the value of the first input to "9" and calling `sendContext` again yields
the very same mapping as before, with `_str` = "2" under `a`; the entry for the edited input
does not have `_str` = "9". In the same way, in the tree with the input `b` (value "2")
whose nested list holds an input named `_str`, changing the value of `b` to "9" leaves the
mapping as it was. -/
theorem sendContext_edit_of_shadowed_input :
    sendContextData 3
        (treePage (Loc.here [] (Item.branch "b" "2" [Item.leaf "_str" "3"]) []).tree "") =
      some (JSON.obj [("b", JSON.obj [("_str", JSON.obj [("_str", JSON.str "3")])])]) ∧
    sendContextData 3
        (treePage (Loc.edit "9" (Loc.here [] (Item.branch "b" "2" [Item.leaf "_str" "3"]) []))
          "") =
      some (JSON.obj [("b", JSON.obj [("_str", JSON.obj [("_str", JSON.str "3")])])]) ∧
    setStrAt (Loc.here [] (Item.branch "b" "2" [Item.leaf "_str" "3"]) []).names "9"
        [("b", JSON.obj [("_str", JSON.obj [("_str", JSON.str "3")])])] =
      [("b", JSON.obj [("_str", JSON.str "9")])] ∧
    sendContextData 2 (treePage (Loc.here [] (Item.leaf "a" "1") [Item.leaf "a" "2"]).tree "") =
      some (JSON.obj [("a", JSON.obj [("_str", JSON.str "2")])]) ∧
    sendContextData 2
        (treePage (Loc.edit "9" (Loc.here [] (Item.leaf "a" "1") [Item.leaf "a" "2"])) "") =
      some (JSON.obj [("a", JSON.obj [("_str", JSON.str "2")])]) ∧
    setStrAt (Loc.here [] (Item.leaf "a" "1") [Item.leaf "a" "2"]).names "9"
        [("a", JSON.obj [("_str", JSON.str "2")])] =
      [("a", JSON.obj [("_str", JSON.str "9")])] ∧
    sendContextData 2
        (treePage (Loc.edit "9" (Loc.here [] (Item.leaf "a" "1") [Item.leaf "a" "2"])) "") ≠
      some (JSON.obj (setStrAt (Loc.here [] (Item.leaf "a" "1") [Item.leaf "a" "2"]).names "9"
        [("a", JSON.obj [("_str", JSON.str "2")])])) := by
  have h2 : sendContextData 2
        (treePage (Loc.edit "9" (Loc.here [] (Item.leaf "a" "1") [Item.leaf "a" "2"])) "") =
      some (JSON.obj [("a", JSON.obj [("_str", JSON.str "2")])]) := rfl
  have h3 : setStrAt (Loc.here [] (Item.leaf "a" "1") [Item.leaf "a" "2"]).names "9"
        [("a", JSON.obj [("_str", JSON.str "2")])] =
      [("a", JSON.obj [("_str", JSON.str "9")])] := by
    simp [Loc.names, Item.name, setStrAt, updateKey, onObj]
  have h4 : setStrAt (Loc.here [] (Item.branch "b" "2" [Item.leaf "_str" "3"]) []).names "9"
        [("b", JSON.obj [("_str", JSON.obj [("_str", JSON.str "3")])])] =
      [("b", JSON.obj [("_str", JSON.str "9")])] := by
    simp [Loc.names, Item.name, setStrAt, updateKey, onObj]
  refine ⟨rfl, rfl, h4, rfl, h2, h3, ?_⟩
  rw [h2, h3]
  simp

/-- Claim C6, amended. `sendContext` stores into the hidden field the serialised form of the
mapping `buildContext` builds from a new empty mapping and the current tree. For every tree
in which no input is named `__proto__` and every input in it that is not shadowed (no later
sibling of its item, or of an item it is nested in, has the same name as that item, and no
item of its own nested list is named `_str`): the mapping holds, along the names leading to
the input, a `_str` with the value read from the input; changing the value of that input to
`v` and calling `sendContext` again yields the same mapping as before except that this
`_str` is `v` as `.val()` reads it (carriage returns removed); every other key and value is
unchanged. Both calls return for fuel above the nesting depth. -/
theorem sendContext_after_edit (toJSON : JSON → String) (fuel : Nat) (loc : Loc)
    (v hidden : String) (hv : loc.visible = true)
    (ho : Item.ordinaryNamesList loc.tree = true)
    (hf : Item.depthOfList loc.tree < fuel) :
    ∃ m,
      sendContextData fuel (treePage loc.tree hidden) = some (JSON.obj m) ∧
      strAt loc.names m = some (JSON.str (readValue loc.item.value)) ∧
      sendContext toJSON fuel (treePage loc.tree hidden) =
        some (treePage loc.tree (toJSON (JSON.obj m))) ∧
      sendContextData fuel (treePage (loc.edit v) (toJSON (JSON.obj m))) =
        some (JSON.obj (setStrAt loc.names (readValue v) m)) ∧
      strAt loc.names (setStrAt loc.names (readValue v) m) = some (JSON.str (readValue v)) ∧
      sendContext toJSON fuel (treePage (loc.edit v) (toJSON (JSON.obj m))) =
        some (treePage (loc.edit v)
          (toJSON (JSON.obj (setStrAt loc.names (readValue v) m)))) := by
  have h1 : sendContextData fuel (treePage loc.tree hidden) =
      some (JSON.obj (Item.assignAll [] loc.tree)) := by
    rw [sendContextData_treePage, buildFrom_items fuel none _ hf ho]
    rfl
  have h2 : sendContextData fuel
      (treePage (loc.edit v) (toJSON (JSON.obj (Item.assignAll [] loc.tree)))) =
      some (JSON.obj (setStrAt loc.names (readValue v) (Item.assignAll [] loc.tree))) := by
    rw [sendContextData_treePage,
      buildFrom_items fuel none _ (by rw [depthOfList_edit]; exact hf)
        (by rw [ordinaryNamesList_edit]; exact ho)]
    have := assignAll_edit loc v [] (by simp) hv
    simp only [initJSON]
    rw [this]
  have h3 := strAt_assignAll loc [] hv
  refine ⟨Item.assignAll [] loc.tree, h1, h3, ?_, h2, strAt_setStrAt _ _ _ _ h3, ?_⟩
  · simp only [sendContext, h1]
    rfl
  · simp only [sendContext, h2]
    rfl

theorem sendContext_after_edit_witness :
    ((Loc.inside [Item.leaf "a" "1"] "b" "2" (Loc.here [] (Item.leaf "c" "3") []) []).visible =
        true ∧
      Item.ordinaryNamesList
        (Loc.inside [Item.leaf "a" "1"] "b" "2" (Loc.here [] (Item.leaf "c" "3") []) []).tree =
        true ∧
      Item.depthOfList
        (Loc.inside [Item.leaf "a" "1"] "b" "2" (Loc.here [] (Item.leaf "c" "3") []) []).tree <
        3) ∧
    ∃ m,
      sendContextData 3
          (treePage
            (Loc.inside [Item.leaf "a" "1"] "b" "2" (Loc.here [] (Item.leaf "c" "3") []) []).tree
            "") = some (JSON.obj m) ∧
      strAt (Loc.inside [Item.leaf "a" "1"] "b" "2" (Loc.here [] (Item.leaf "c" "3") []) []).names
          m =
        some (JSON.str (readValue
          (Loc.inside [Item.leaf "a" "1"] "b" "2"
            (Loc.here [] (Item.leaf "c" "3") []) []).item.value)) ∧
      sendContext (fun _ => "json") 3
          (treePage
            (Loc.inside [Item.leaf "a" "1"] "b" "2" (Loc.here [] (Item.leaf "c" "3") []) []).tree
            "") =
        some (treePage
          (Loc.inside [Item.leaf "a" "1"] "b" "2" (Loc.here [] (Item.leaf "c" "3") []) []).tree
          ((fun _ => "json") (JSON.obj m))) ∧
      sendContextData 3
          (treePage
            (Loc.edit "9"
              (Loc.inside [Item.leaf "a" "1"] "b" "2" (Loc.here [] (Item.leaf "c" "3") []) []))
            ((fun _ => "json") (JSON.obj m))) =
        some (JSON.obj
          (setStrAt
            (Loc.inside [Item.leaf "a" "1"] "b" "2" (Loc.here [] (Item.leaf "c" "3") []) []).names
            (readValue "9") m)) ∧
      strAt (Loc.inside [Item.leaf "a" "1"] "b" "2" (Loc.here [] (Item.leaf "c" "3") []) []).names
          (setStrAt
            (Loc.inside [Item.leaf "a" "1"] "b" "2" (Loc.here [] (Item.leaf "c" "3") []) []).names
            (readValue "9") m) =
        some (JSON.str (readValue "9")) ∧
      sendContext (fun _ => "json") 3
          (treePage
            (Loc.edit "9"
              (Loc.inside [Item.leaf "a" "1"] "b" "2" (Loc.here [] (Item.leaf "c" "3") []) []))
            ((fun _ => "json") (JSON.obj m))) =
        some (treePage
          (Loc.edit "9"
            (Loc.inside [Item.leaf "a" "1"] "b" "2" (Loc.here [] (Item.leaf "c" "3") []) []))
          ((fun _ => "json")
            (JSON.obj
              (setStrAt
                (Loc.inside [Item.leaf "a" "1"] "b" "2"
                  (Loc.here [] (Item.leaf "c" "3") []) []).names
                (readValue "9") m)))) :=
  ⟨⟨by decide, by decide, by decide⟩,
    sendContext_after_edit (fun _ => "json") 3
      (Loc.inside [Item.leaf "a" "1"] "b" "2" (Loc.here [] (Item.leaf "c" "3") []) []) "9" ""
      (by decide) (by decide) (by decide)⟩

end TemplatePreviewer
